import Mathlib

/-!
Verification development for the inlay-hint cache of
src/crates/editor/src/inlay_hint_cache.rs.

The embedding is shallow: anchors and text positions become natural numbers
ordered by the usual order (the code only ever compares anchors through a
snapshot-relative comparator, which on our model is the order on Nat),
hash maps keyed by excerpt ids become association lists, hash sets of hint
kinds become finite sets, and the asynchronous commit closure of
new_update_task becomes a pure state transition function.  Every function
keeps the name and the structure of its Rust counterpart.
-/

set_option autoImplicit false

namespace InlayHintCacheModel

/-- Hint kinds, mirroring project::InlayHintKind. -/
inductive InlayHintKind where
  | type
  | parameter
deriving DecidableEq, Repr

/-- An inlay hint value, mirroring project::InlayHint as used by the cache:
a position (text anchor in the hinted buffer), an optional kind and an
opaque payload compared by value (the label).  The payload field is
modelled from the spec (project::InlayHint is outside this repository):
a Hint is an immutable value compared for equality by value. -/
structure InlayHint where
  position : Nat
  kind : Option InlayHintKind
  label : String
deriving DecidableEq, Repr

instance : Inhabited InlayHint := ⟨⟨0, Option.none, ""⟩⟩

/-- A multibuffer anchor, as stored in a displayed inlay: which excerpt it
belongs to, the text anchor inside the underlying buffer, and the id of the
underlying buffer (used by new_allowed_hint_kinds_splice to resolve the
buffer snapshot). -/
structure Anchor where
  excerpt_id : Nat
  text_anchor : Nat
  buffer_id : Option Nat
deriving DecidableEq, Repr

/-- A currently displayed inlay, mirroring display_map::Inlay: identity,
multibuffer anchor and rendered text. -/
structure Inlay where
  id : Nat
  position : Anchor
  text : String
deriving DecidableEq, Repr

/-- The multibuffer as the cache observes it: which buffer backs each
excerpt (used by MultiBufferSnapshot::anchor_in_excerpt) and which buffer
ids resolve through MultiBuffer::buffer. -/
structure MultiBufferModel where
  excerpt_buffer : Nat → Option Nat
  buffers : List Nat

/-- MultiBufferSnapshot::anchor_in_excerpt: build a multibuffer anchor for
a text position inside an excerpt. -/
def anchorInExcerpt (m : MultiBufferModel) (excerpt_id : Nat) (pos : Nat) : Anchor :=
  ⟨excerpt_id, pos, m.excerpt_buffer excerpt_id⟩

/-- InvalidationStrategy from the source. -/
inductive InvalidationStrategy where
  | all
  | onConflict
  | none
deriving DecidableEq, Repr

/-- The invalidate_cache test of spawn_hints_update and
new_excerpt_hints_update_result: matches!(invalidate, All | OnConflict). -/
def invalidateCache (strategy : InvalidationStrategy) : Bool :=
  match strategy with
  | InvalidationStrategy.all => true
  | InvalidationStrategy.onConflict => true
  | InvalidationStrategy.none => false

/-- CachedExcerptHints: per-excerpt cache entry. -/
structure CachedExcerptHints where
  version : Nat
  buffer_version : Nat
  hints : List (Nat × InlayHint)
deriving DecidableEq, Repr

/-- ExcerptQuery: what one update task was asked to fetch. -/
structure ExcerptQuery where
  buffer_id : Nat
  excerpt_id : Nat
  excerpt_range_start : Nat
  excerpt_range_end : Nat
  cache_version : Nat
  invalidate : InvalidationStrategy
deriving Repr

/-- ExcerptQuery::contains_position: range start ≤ position ≤ range end,
both comparisons made through the buffer snapshot comparator. -/
def ExcerptQuery.containsPosition (q : ExcerptQuery) (position : Nat) : Bool :=
  q.excerpt_range_start ≤ position && q.excerpt_range_end ≥ position

/-- InlaySplice: removals and insertions handed to the visible-set sink. -/
structure InlaySplice where
  to_remove : List Nat
  to_insert : List (Anchor × Nat × InlayHint)
deriving DecidableEq, Repr

/-- ExcerptHintsUpdate: the delta produced by the diff step. -/
structure ExcerptHintsUpdate where
  excerpt_id : Nat
  cache_version : Nat
  remove_from_visible : List Nat
  remove_from_cache : Finset Nat
  add_to_cache : List InlayHint
deriving DecidableEq

/-- InlayHintCache: the store itself.  hints and update_tasks are hash
maps keyed by excerpt id in the source; here they are association lists
with distinct keys.  update_tasks keeps only the version of the task, the
task handle itself being irrelevant to the model. -/
structure InlayHintCache where
  hints : List (Nat × CachedExcerptHints)
  allowed_hint_kinds : Finset (Option InlayHintKind)
  version : Nat
  update_tasks : List (Nat × Nat)
deriving DecidableEq

/-- The slice of editor state the commit closure touches: the cache and
the next_inlay_id counter used by post_inc when minting hint identities. -/
structure EditorState where
  cache : InlayHintCache
  next_inlay_id : Nat
deriving DecidableEq

/-- Settings flags consumed by allowed_hint_types / update_settings. -/
structure InlayHintSettings where
  enabled : Bool
  show_type_hints : Bool
  show_parameter_hints : Bool
  show_other_hints : Bool
deriving DecidableEq, Repr

/-- allowed_hint_types from the source: the set of kinds derived from the
settings flags. -/
def allowedHintTypes (s : InlayHintSettings) : Finset (Option InlayHintKind) :=
  let k0 : Finset (Option InlayHintKind) := ∅
  let k1 := if s.show_type_hints then insert (some InlayHintKind.type) k0 else k0
  let k2 := if s.show_parameter_hints then insert (some InlayHintKind.parameter) k1 else k1
  if s.show_other_hints then insert Option.none k2 else k2

/-!  ### The diff step: new_excerpt_hints_update_result  -/

/-- slice::binary_search_by, the recursive worker.  The comparator is
applied to the probe element; Less narrows to the right half, Greater to
the left half, Equal returns the probe index.  The search interval
shrinks strictly at every step, so a fuel budget of one more than the
initial interval length is never exhausted; the fuel only makes the
recursion structural.  Out-of-range defaults never arise because mid
always stays below the initial right bound. -/
def binarySearchGo {α : Type} (f : α → Ordering) (xs : List α) (dflt : α) :
    Nat → Nat → Nat → Except Nat Nat
  | 0, left, _ => Except.error left
  | fuel + 1, left, right =>
    if left < right then
      match f (xs.getD (left + (right - left) / 2) dflt) with
      | Ordering.lt => binarySearchGo f xs dflt fuel (left + (right - left) / 2 + 1) right
      | Ordering.gt => binarySearchGo f xs dflt fuel left (left + (right - left) / 2)
      | Ordering.eq => Except.ok (left + (right - left) / 2)
    else Except.error left

/-- slice::binary_search_by over a whole list. -/
def binarySearchBy {α : Type} (f : α → Ordering) (xs : List α) (dflt : α) : Except Nat Nat :=
  binarySearchGo f xs dflt (xs.length + 1) 0 xs.length

/-- One iteration of the fetched-hints loop of
new_excerpt_hints_update_result: binary-search the cached sorted list for
the fetched position; on an exact position hit with a value-equal hint,
report the cached identity and kind to persist; otherwise report the hint
as missing from the cache. -/
def cachedMatch (cached : Option CachedExcerptHints) (new_hint : InlayHint) :
    Option (Nat × Option InlayHintKind) :=
  match cached with
  | Option.none => Option.none
  | some c =>
    match binarySearchBy (fun probe => compare probe.2.position new_hint.position)
        c.hints (0, default) with
    | Except.ok ix =>
      let p := c.hints.getD ix (0, default)
      if p.2 = new_hint then some (p.1, p.2.kind) else Option.none
    | Except.error _ => Option.none

/-- The fetched-hints loop of new_excerpt_hints_update_result: walk the
fetched list in order, dropping hints outside the queried span, and
accumulate the persisted (id, kind) map and the add_to_cache list. -/
def hintsToPersistAndAdd (q : ExcerptQuery) (cached : Option CachedExcerptHints) :
    List InlayHint → List (Nat × Option InlayHintKind) × List InlayHint
  | [] => ([], [])
  | new_hint :: rest =>
    if q.containsPosition new_hint.position then
      match cachedMatch cached new_hint with
      | some entry =>
        (entry :: (hintsToPersistAndAdd q cached rest).1,
         (hintsToPersistAndAdd q cached rest).2)
      | Option.none =>
        ((hintsToPersistAndAdd q cached rest).1,
         new_hint :: (hintsToPersistAndAdd q cached rest).2)
    else hintsToPersistAndAdd q cached rest

/-- HashMap::contains_key on the persisted map. -/
def containsKey (persist : List (Nat × Option InlayHintKind)) (id : Nat) : Bool :=
  persist.any (fun p => p.1 == id)

/-- The remove_from_visible computation of new_excerpt_hints_update_result:
under an invalidating strategy, every visible hint of the queried excerpt
whose position lies in the queried span and whose id was not persisted. -/
def excerptRemoveFromVisible (q : ExcerptQuery)
    (persist : List (Nat × Option InlayHintKind)) (visible_hints : List Inlay) : List Nat :=
  if invalidateCache q.invalidate then
    ((((visible_hints.filter (fun hint => hint.position.excerpt_id == q.excerpt_id)).filter
        (fun hint => q.containsPosition hint.position.text_anchor)).map
        (fun inlay_hint => inlay_hint.id)).filter
        (fun hint_id => !containsKey persist hint_id))
  else []

/-- The remove_from_cache computation of new_excerpt_hints_update_result:
under an invalidating strategy, every cached id not persisted. -/
def excerptRemoveFromCache (q : ExcerptQuery)
    (persist : List (Nat × Option InlayHintKind)) (cached : Option CachedExcerptHints) :
    Finset Nat :=
  if invalidateCache q.invalidate then
    match cached with
    | some c =>
      ((c.hints.filter (fun p => !containsKey persist p.1)).map (fun p => p.1)).toFinset
    | Option.none => ∅
  else ∅

/-- new_excerpt_hints_update_result from the source: classify fetched
hints against the cache, compute the removal sets under the invalidation
strategy, and return None exactly when the delta is empty. -/
def newExcerptHintsUpdateResult (q : ExcerptQuery) (new_excerpt_hints : List InlayHint)
    (cached : Option CachedExcerptHints) (visible_hints : List Inlay) :
    Option ExcerptHintsUpdate :=
  let pa := hintsToPersistAndAdd q cached new_excerpt_hints
  let remove_from_visible := excerptRemoveFromVisible q pa.1 visible_hints
  let remove_from_cache := excerptRemoveFromCache q pa.1 cached
  if remove_from_visible.isEmpty && remove_from_cache = ∅ && pa.2.isEmpty then
    Option.none
  else
    some ⟨q.excerpt_id, q.cache_version, remove_from_visible, remove_from_cache, pa.2⟩

/-!  ### The commit step: the closure spawned by new_update_task  -/

/-- Replace the value stored under a key in an association-list map,
appending the binding when the key is absent (HashMap::entry + write). -/
def updateEntry {β : Type} : List (Nat × β) → Nat → β → List (Nat × β)
  | [], k, v => [(k, v)]
  | (k0, v0) :: rest, k, v =>
    if k0 = k then (k, v) :: rest else (k0, v0) :: updateEntry rest k v

/-- The add_to_cache loop of the commit closure: mint the next identity
with post_inc for every new hint, push (position, id, hint) onto the
splice when the kind is allowed, and push (id, hint) onto the cache
unconditionally.  Returns (splice insertions, cache additions, counter). -/
def addLoop (allowed : Finset (Option InlayHintKind)) (m : MultiBufferModel)
    (q : ExcerptQuery) : Nat → List InlayHint →
    List (Anchor × Nat × InlayHint) × List (Nat × InlayHint) × Nat
  | next, [] => ([], [], next)
  | next, new_hint :: rest =>
    let tail := addLoop allowed m q (next + 1) rest
    ((if new_hint.kind ∈ allowed then
        [(anchorInExcerpt m q.excerpt_id new_hint.position, next, new_hint)]
      else []) ++ tail.1,
     (next, new_hint) :: tail.2.1,
     tail.2.2)

/-- The position order used by the commit-time sort_by call. -/
def hintPosLe (a b : Nat × InlayHint) : Prop :=
  a.2.position ≤ b.2.position

instance : DecidableRel hintPosLe := fun a b => Nat.decLe a.2.position b.2.position

instance : IsTotal (Nat × InlayHint) hintPosLe := ⟨fun a b => Nat.le_total a.2.position b.2.position⟩

instance : IsTrans (Nat × InlayHint) hintPosLe := ⟨fun _ _ _ h1 h2 => Nat.le_trans h1 h2⟩

/-- The body of the commit closure once the version guard has passed:
take the delta's version, purge the ids scheduled for cache removal,
stamp the buffer version, bump the global cache version, run the
add_to_cache loop, re-sort the entry by position (sort_by is a stable
sort, whose result insertion sort reproduces exactly), and emit the
splice when it is non-empty. -/
def commitProceed (st : EditorState) (m : MultiBufferModel) (q : ExcerptQuery)
    (u : ExcerptHintsUpdate) (buffer_version : Nat) (c : CachedExcerptHints) :
    EditorState × Option InlaySplice :=
  let retained := c.hints.filter (fun p => p.1 ∉ u.remove_from_cache)
  let added := addLoop st.cache.allowed_hint_kinds m q st.next_inlay_id u.add_to_cache
  let new_hints := List.insertionSort hintPosLe (retained ++ added.2.1)
  let new_entry : CachedExcerptHints := ⟨u.cache_version, buffer_version, new_hints⟩
  let st1 : EditorState :=
    { cache :=
        { hints := updateEntry st.cache.hints u.excerpt_id new_entry
          allowed_hint_kinds := st.cache.allowed_hint_kinds
          version := st.cache.version + 1
          update_tasks := st.cache.update_tasks }
      next_inlay_id := added.2.2 }
  let splice : InlaySplice := ⟨u.remove_from_visible, added.1⟩
  (st1, if splice.to_remove.isEmpty && splice.to_insert.isEmpty then Option.none else some splice)

/-- The commit closure of new_update_task: look the excerpt entry up
(or_insert_with creates a fresh entry carrying the delta's version), and
discard the delta when its cache_version is strictly below the stored
version; otherwise proceed. -/
def commitUpdate (st : EditorState) (m : MultiBufferModel) (q : ExcerptQuery)
    (u : ExcerptHintsUpdate) (buffer_version : Nat) : EditorState × Option InlaySplice :=
  match List.lookup u.excerpt_id st.cache.hints with
  | some c =>
    if u.cache_version < c.version then (st, Option.none)
    else commitProceed st m q u buffer_version c
  | Option.none => commitProceed st m q u buffer_version ⟨u.cache_version, buffer_version, []⟩

/-- One completed fetch round for one excerpt: the diff step followed, on
a non-empty delta, by the commit step.  A None delta commits nothing and
emits nothing. -/
def applyFetchResult (st : EditorState) (m : MultiBufferModel) (q : ExcerptQuery)
    (visible_hints : List Inlay) (buffer_version : Nat) (fetched : List InlayHint) :
    EditorState × Option InlaySplice :=
  match newExcerptHintsUpdateResult q fetched (List.lookup q.excerpt_id st.cache.hints)
      visible_hints with
  | some u => commitUpdate st m q u buffer_version
  | Option.none => (st, Option.none)

/-!  ### The scheduler: spawn_hints_update  -/

/-- The per-excerpt retain decision of spawn_hints_update: no recorded
task proceeds; otherwise the recorded version is compared with the
dispatch version as in the source (Less proceeds, Equal proceeds only
when invalidating, Greater skips). -/
def spawnRetainDecision (update_tasks : List (Nat × Nat)) (cache_version : Nat)
    (invalidate_cache : Bool) (excerpt_id : Nat) : Bool :=
  match List.lookup excerpt_id update_tasks with
  | some task_version =>
    match compare task_version cache_version with
    | Ordering.lt => true
    | Ordering.eq => invalidate_cache
    | Ordering.gt => false
  | Option.none => true

/-- The synchronous filtering stage of spawn_hints_update: when
invalidating, drop task bookkeeping for excerpts outside the request set,
then retain requested excerpts by the per-excerpt decision; the source
repeats both retain blocks a second time.  Returns the surviving task map
and the surviving request set. -/
def spawnFilter (update_tasks : List (Nat × Nat)) (excerpts_to_query : List Nat)
    (cache_version : Nat) (invalidate : InvalidationStrategy) :
    List (Nat × Nat) × List Nat :=
  let inv := invalidateCache invalidate
  let tasks1 := if inv then update_tasks.filter (fun t => t.1 ∈ excerpts_to_query)
    else update_tasks
  let ex1 := excerpts_to_query.filter (spawnRetainDecision tasks1 cache_version inv)
  let tasks2 := if inv then tasks1.filter (fun t => t.1 ∈ ex1) else tasks1
  let ex2 := ex1.filter (spawnRetainDecision tasks2 cache_version inv)
  (tasks2, ex2)

/-!  ### Settings: update_settings, clear, new_allowed_hint_kinds_splice  -/

/-- InlayHintCache::clear. -/
def clearCache (c : InlayHintCache) : InlayHintCache :=
  { hints := []
    allowed_hint_kinds := ∅
    version := c.version + 1
    update_tasks := [] }

/-- The value pulled out of the grouped shown-hints map by
entry(excerpt_id).or_default(). -/
def lookupGroup (g : List (Nat × List (Anchor × Nat))) (e : Nat) : List (Anchor × Nat) :=
  (List.lookup e g).getD []

/-- Write a group back into the grouped map, appending it when absent
(the effect of entry().or_default() followed by an in-place retain). -/
def setGroup : List (Nat × List (Anchor × Nat)) → Nat → List (Anchor × Nat) →
    List (Nat × List (Anchor × Nat))
  | [], e, v => [(e, v)]
  | (k, vs) :: rest, e, v =>
    if k = e then (k, v) :: rest else (k, vs) :: setGroup rest e v

/-- One push of the visible-hints fold of new_allowed_hint_kinds_splice:
entry(position.excerpt_id).or_default().push((position, id)). -/
def groupPush (g : List (Nat × List (Anchor × Nat))) (e : Nat) (v : Anchor × Nat) :
    List (Nat × List (Anchor × Nat)) :=
  match g with
  | [] => [(e, [v])]
  | (k, vs) :: rest =>
    if k = e then (k, vs ++ [v]) :: rest else (k, vs) :: groupPush rest e v

/-- The visible-hints fold of new_allowed_hint_kinds_splice: group the
shown inlays by excerpt, preserving their relative order. -/
def groupByExcerpt (visible_hints : List Inlay) : List (Nat × List (Anchor × Nat)) :=
  visible_hints.foldl (fun g inlay => groupPush g inlay.position.excerpt_id (inlay.position, inlay.id)) []

/-- The inner loop of the retain closure of new_allowed_hint_kinds_splice,
for one shown hint: peek the cached cursor; a matching id consumes the
entry and retains the shown hint exactly when its kind is no longer
allowed; a cached entry at or before the shown position is consumed,
contributing an insertion when its kind just became allowed; a cached
entry past the shown position, or an exhausted cursor, retains the shown
hint without consuming.  Returns (retain?, insertions, remaining cursor). -/
def processShownHint (old_kinds new_kinds : Finset (Option InlayHintKind))
    (m : MultiBufferModel) (excerpt_id : Nat) (shown : Anchor × Nat) :
    List (Nat × InlayHint) →
    Bool × List (Anchor × Nat × InlayHint) × List (Nat × InlayHint)
  | [] => (true, [], [])
  | (cached_hint_id, cached_hint) :: rest =>
    if cached_hint_id = shown.2 then
      (decide (cached_hint.kind ∉ new_kinds), [], rest)
    else if cached_hint.position ≤ shown.1.text_anchor then
      let tail := processShownHint old_kinds new_kinds m excerpt_id shown rest
      (tail.1,
       (if cached_hint.kind ∉ old_kinds ∧ cached_hint.kind ∈ new_kinds then
          [(anchorInExcerpt m excerpt_id cached_hint.position, cached_hint_id, cached_hint)]
        else []) ++ tail.2.1,
       tail.2.2)
    else (true, [], (cached_hint_id, cached_hint) :: rest)

/-- The retain closure of new_allowed_hint_kinds_splice over one
excerpt's shown hints: a shown hint whose buffer cannot be resolved is
dropped from the removal candidates without touching the cursor;
otherwise processShownHint decides.  Returns (retained shown hints,
insertions, remaining cursor). -/
def walkShown (old_kinds new_kinds : Finset (Option InlayHintKind))
    (m : MultiBufferModel) (excerpt_id : Nat) :
    List (Nat × InlayHint) → List (Anchor × Nat) →
    List (Anchor × Nat) × List (Anchor × Nat × InlayHint) × List (Nat × InlayHint)
  | cache, [] => ([], [], cache)
  | cache, shown :: rest =>
    let resolvable : Bool :=
      match shown.1.buffer_id with
      | some b => b ∈ m.buffers
      | Option.none => false
    if resolvable then
      let step := processShownHint old_kinds new_kinds m excerpt_id shown cache
      let tail := walkShown old_kinds new_kinds m excerpt_id step.2.2 rest
      ((if step.1 then [shown] else []) ++ tail.1, step.2.1 ++ tail.2.1, tail.2.2)
    else
      let tail := walkShown old_kinds new_kinds m excerpt_id cache rest
      (tail.1, tail.2.1, tail.2.2)

/-- The trailing loop of new_allowed_hint_kinds_splice over the cached
entries the cursor never reached: insert those whose kind just became
allowed. -/
def leftoverInsertions (old_kinds new_kinds : Finset (Option InlayHintKind))
    (m : MultiBufferModel) (excerpt_id : Nat) (leftover : List (Nat × InlayHint)) :
    List (Anchor × Nat × InlayHint) :=
  leftover.filterMap (fun p =>
    if p.2.kind ∉ old_kinds ∧ p.2.kind ∈ new_kinds then
      some (anchorInExcerpt m excerpt_id p.2.position, p.1, p.2)
    else Option.none)

/-- The per-excerpt loop of new_allowed_hint_kinds_splice: for every
cached excerpt, pull its shown group, walk it against the cached entries,
write the retained group back, and collect the insertions of the walk and
of the leftover loop. -/
def processExcerpts (old_kinds new_kinds : Finset (Option InlayHintKind))
    (m : MultiBufferModel) :
    List (Nat × CachedExcerptHints) → List (Nat × List (Anchor × Nat)) →
    List (Nat × List (Anchor × Nat)) × List (Anchor × Nat × InlayHint)
  | [], grouped => (grouped, [])
  | (excerpt_id, ch) :: rest, grouped =>
    let shown := lookupGroup grouped excerpt_id
    let walked := walkShown old_kinds new_kinds m excerpt_id ch.hints shown
    let ins2 := leftoverInsertions old_kinds new_kinds m excerpt_id walked.2.2
    let tail := processExcerpts old_kinds new_kinds m rest (setGroup grouped excerpt_id walked.1)
    (tail.1, walked.2.1 ++ ins2 ++ tail.2)

/-- new_allowed_hint_kinds_splice from the source: no-op when the kind
set is unchanged; otherwise group the shown hints by excerpt, merge-walk
every cached excerpt, flatten whatever shown hints remain grouped into
to_remove, and return None when the splice is empty. -/
def newAllowedHintKindsSplice (c : InlayHintCache) (m : MultiBufferModel)
    (visible_hints : List Inlay) (new_kinds : Finset (Option InlayHintKind)) :
    Option InlaySplice :=
  if new_kinds = c.allowed_hint_kinds then Option.none
  else
    let processed := processExcerpts c.allowed_hint_kinds new_kinds m c.hints
      (groupByExcerpt visible_hints)
    let to_remove := ((processed.1.map (fun g => g.2)).flatten).map (fun p => p.2)
    let to_insert := processed.2
    if to_remove.isEmpty && to_insert.isEmpty then Option.none
    else some ⟨to_remove, to_insert⟩

/-- InlayHintCache::update_settings from the source. -/
def updateSettings (c : InlayHintCache) (m : MultiBufferModel)
    (inlay_hint_settings : InlayHintSettings) (visible_hints : List Inlay) :
    InlayHintCache × Option InlaySplice :=
  let new_allowed_hint_kinds := allowedHintTypes inlay_hint_settings
  if !inlay_hint_settings.enabled then
    if c.hints.isEmpty then
      ({ c with allowed_hint_kinds := new_allowed_hint_kinds }, Option.none)
    else
      let c1 := clearCache c
      ({ c1 with allowed_hint_kinds := new_allowed_hint_kinds },
       some ⟨visible_hints.map (fun inlay => inlay.id), []⟩)
  else if new_allowed_hint_kinds = c.allowed_hint_kinds then
    (c, Option.none)
  else
    match newAllowedHintKindsSplice c m visible_hints new_allowed_hint_kinds with
    | some new_splice =>
      ({ c with
          version := c.version + 1
          update_tasks := []
          allowed_hint_kinds := new_allowed_hint_kinds }, some new_splice)
    | Option.none => (c, Option.none)

/-!  ### The visible-set sink  -/

/-- Modelled from the spec: the Visible-Set Sink (Editor::splice_inlay_hints,
outside this repository) applies a Splice atomically, removing the listed
ids and inserting the listed (position, id, hint) triples as displayed
inlays. -/
def applySplice (visible_hints : List Inlay) (sp : InlaySplice) : List Inlay :=
  visible_hints.filter (fun inlay => inlay.id ∉ sp.to_remove) ++
    sp.to_insert.map (fun p => ⟨p.2.1, p.1, p.2.2.label⟩)

/-- Apply an optional splice: None leaves the visible set untouched. -/
def applyOptSplice (visible_hints : List Inlay) (osp : Option InlaySplice) : List Inlay :=
  match osp with
  | some sp => applySplice visible_hints sp
  | Option.none => visible_hints

/-- The visible projection of the cache under a kind set: for every
cached excerpt in order, the cached hints whose kind is allowed, rendered
at their excerpt anchors.  This is the consistency relation between the
store and the visible set that commits establish. -/
def projectVisible (m : MultiBufferModel) (kinds : Finset (Option InlayHintKind))
    (hints : List (Nat × CachedExcerptHints)) : List Inlay :=
  (hints.map (fun g =>
    ((g.2.hints.filter (fun p => p.2.kind ∈ kinds)).map
      (fun p => (⟨p.1, anchorInExcerpt m g.1 p.2.position, p.2.label⟩ : Inlay))))).flatten

/-!  ### Association-list map lemmas  -/

theorem lookup_updateEntry_self {β : Type} (l : List (Nat × β)) (k : Nat) (v : β) :
    List.lookup k (updateEntry l k v) = some v := by
  induction l with
  | nil => simp [updateEntry, List.lookup]
  | cons p rest ih =>
    obtain ⟨k0, v0⟩ := p
    by_cases h : k0 = k
    · simp [updateEntry, h, List.lookup]
    · simp only [updateEntry, if_neg h, List.lookup]
      have : (k == k0) = false := by
        simp [Ne.symm h]
      rw [this]
      exact ih

theorem lookup_updateEntry_ne {β : Type} (l : List (Nat × β)) (k k1 : Nat) (v : β)
    (h : k1 ≠ k) : List.lookup k1 (updateEntry l k v) = List.lookup k1 l := by
  have hbe : (k1 == k) = false := by simp [h]
  induction l with
  | nil => simp [updateEntry, List.lookup, hbe]
  | cons p rest ih =>
    obtain ⟨k0, v0⟩ := p
    by_cases h0 : k0 = k
    · subst h0
      simp only [updateEntry, if_pos rfl, List.lookup, hbe]
    · simp only [updateEntry, if_neg h0, List.lookup]
      cases k1 == k0 with
      | true => rfl
      | false => exact ih

theorem lookup_filter_of_key_true {β : Type} (l : List (Nat × β)) (p : Nat → Bool)
    (k : Nat) (hk : p k = true) :
    List.lookup k (l.filter (fun t => p t.1)) = List.lookup k l := by
  induction l with
  | nil => rfl
  | cons q rest ih =>
    obtain ⟨k0, v0⟩ := q
    by_cases h : k = k0
    · subst h
      simp [List.filter, hk, List.lookup]
    · have hbe : (k == k0) = false := by simp [h]
      cases hp : p k0 with
      | true => simp [List.filter, hp, List.lookup, hbe, ih]
      | false => simp [List.filter, hp, List.lookup, hbe, ih]

/-- The cache map commitProceed writes: the committed excerpt is bound to
the delta version, the fresh buffer version and the re-sorted merge of
the retained and the newly added hints. -/
theorem commitProceed_fst_hints (st : EditorState) (m : MultiBufferModel)
    (q : ExcerptQuery) (u : ExcerptHintsUpdate) (bv : Nat) (c : CachedExcerptHints) :
    (commitProceed st m q u bv c).1.cache.hints =
      updateEntry st.cache.hints u.excerpt_id
        ⟨u.cache_version, bv,
         List.insertionSort hintPosLe
           ((c.hints.filter (fun p => p.1 ∉ u.remove_from_cache)) ++
            (addLoop st.cache.allowed_hint_kinds m q st.next_inlay_id u.add_to_cache).2.1)⟩ := rfl

/-- After a commit, the committed excerpt holds an entry and its stored
version is at least the version the delta carried: the proceed path
stamps the delta version, the discard path keeps a strictly larger one. -/
theorem lookup_commitUpdate_self (st : EditorState) (m : MultiBufferModel)
    (q : ExcerptQuery) (u : ExcerptHintsUpdate) (bv : Nat) :
    ∃ c2, List.lookup u.excerpt_id (commitUpdate st m q u bv).1.cache.hints = some c2 ∧
      u.cache_version ≤ c2.version := by
  unfold commitUpdate
  cases hl : List.lookup u.excerpt_id st.cache.hints with
  | none =>
    refine ⟨⟨u.cache_version, bv, ?_⟩, ?_, le_refl _⟩
    · exact List.insertionSort hintPosLe
        ((((⟨u.cache_version, bv, []⟩ : CachedExcerptHints)).hints.filter
            (fun p => p.1 ∉ u.remove_from_cache)) ++
         (addLoop st.cache.allowed_hint_kinds m q st.next_inlay_id u.add_to_cache).2.1)
    · rw [commitProceed_fst_hints]
      exact lookup_updateEntry_self _ _ _
  | some c =>
    by_cases hlt : u.cache_version < c.version
    · simp only [if_pos hlt]
      exact ⟨c, hl, le_of_lt hlt⟩
    · simp only [if_neg hlt]
      refine ⟨⟨u.cache_version, bv, ?_⟩, ?_, le_refl _⟩
      · exact List.insertionSort hintPosLe
          ((c.hints.filter (fun p => p.1 ∉ u.remove_from_cache)) ++
           (addLoop st.cache.allowed_hint_kinds m q st.next_inlay_id u.add_to_cache).2.1)
      · rw [commitProceed_fst_hints]
        exact lookup_updateEntry_self _ _ _

/-!  ### Claims  -/

/-- C1: a commit whose delta carries a cacheVersion strictly below the
stored cacheVersion of its region is discarded, leaving the whole editor
state (cached hints, buffer revision, versions) unchanged and emitting
nothing; consequently committing deltas with versions v2 then v1 < v2 for
one region leaves exactly the state the v2 commit produced. -/
theorem claim1_version_guard :
    (∀ (st : EditorState) (m : MultiBufferModel) (q : ExcerptQuery)
        (u : ExcerptHintsUpdate) (bv : Nat) (c : CachedExcerptHints),
      List.lookup u.excerpt_id st.cache.hints = some c →
      u.cache_version < c.version →
      commitUpdate st m q u bv = (st, Option.none)) ∧
    (∀ (st : EditorState) (m : MultiBufferModel) (q1 q2 : ExcerptQuery)
        (u1 u2 : ExcerptHintsUpdate) (bv1 bv2 : Nat),
      u1.excerpt_id = u2.excerpt_id →
      u1.cache_version < u2.cache_version →
      commitUpdate (commitUpdate st m q2 u2 bv2).1 m q1 u1 bv1 =
        ((commitUpdate st m q2 u2 bv2).1, Option.none)) := by
  have guard : ∀ (st : EditorState) (m : MultiBufferModel) (q : ExcerptQuery)
      (u : ExcerptHintsUpdate) (bv : Nat) (c : CachedExcerptHints),
      List.lookup u.excerpt_id st.cache.hints = some c →
      u.cache_version < c.version →
      commitUpdate st m q u bv = (st, Option.none) := by
    intro st m q u bv c hl hlt
    unfold commitUpdate
    rw [hl]
    simp [hlt]
  refine ⟨guard, ?_⟩
  intro st m q1 q2 u1 u2 bv1 bv2 hexc hlt
  obtain ⟨c2, hc2, hle⟩ := lookup_commitUpdate_self st m q2 u2 bv2
  exact guard _ m q1 u1 bv1 c2 (by rw [hexc]; exact hc2) (lt_of_lt_of_le hlt hle)

theorem claim1_witness :
    commitUpdate ⟨⟨[(3, ⟨5, 0, []⟩)], ∅, 9, []⟩, 0⟩ ⟨fun _ => Option.none, []⟩
      ⟨1, 3, 0, 10, 2, InvalidationStrategy.all⟩ ⟨3, 2, [], ∅, []⟩ 7 =
      (⟨⟨[(3, ⟨5, 0, []⟩)], ∅, 9, []⟩, 0⟩, Option.none) :=
  claim1_version_guard.1 _ ⟨fun _ => Option.none, []⟩ _ _ 7 ⟨5, 0, []⟩ (by decide) (by decide)

/-- C7 counterexample: applySettings with the feature disabled but an
already empty per-region map does NOT increment the version and returns
no splice at all, although a hint is currently visible, contradicting the
claim that every disabled invocation clears, bumps the version and
returns a removal splice. -/
theorem claim7_counterexample :
    (updateSettings ⟨[], ∅, 0, []⟩ ⟨fun _ => Option.none, []⟩ ⟨false, true, true, true⟩
        [⟨5, ⟨1, 2, some 3⟩, "x"⟩]).2 = Option.none ∧
    (updateSettings ⟨[], ∅, 0, []⟩ ⟨fun _ => Option.none, []⟩ ⟨false, true, true, true⟩
        [⟨5, ⟨1, 2, some 3⟩, "x"⟩]).1.version = 0 := by
  constructor
  · rfl
  · rfl

/-- C7 (amended): whenever applySettings is invoked with the hints
feature disabled AND the per-region map is non-empty, the cache is fully
cleared (regions wiped, task bookkeeping dropped, version incremented,
allowedKinds replaced by the newly derived set) and the returned splice
removes every currently visible hint and inserts nothing; when the map is
already empty, only allowedKinds is updated and no splice is returned. -/
theorem claim7_disable_clears :
    ∀ (c : InlayHintCache) (m : MultiBufferModel) (s : InlayHintSettings)
      (visible : List Inlay),
      s.enabled = false →
      (c.hints ≠ [] →
        updateSettings c m s visible =
          (⟨[], allowedHintTypes s, c.version + 1, []⟩,
           some ⟨visible.map (fun inlay => inlay.id), []⟩)) ∧
      (c.hints = [] →
        updateSettings c m s visible =
          ({ c with allowed_hint_kinds := allowedHintTypes s }, Option.none)) := by
  intro c m s visible hs
  constructor
  · intro hne
    have : c.hints.isEmpty = false := by
      simpa [List.isEmpty_iff] using hne
    simp [updateSettings, hs, this, clearCache]
  · intro he
    have : c.hints.isEmpty = true := by simp [List.isEmpty_iff, he]
    simp [updateSettings, hs, this]

theorem claim7_witness :
    updateSettings ⟨[(4, ⟨0, 0, [(0, ⟨3, Option.none, "h"⟩)]⟩)], {Option.none}, 2, [(4, 1)]⟩
        ⟨fun _ => Option.none, []⟩ ⟨false, false, false, false⟩ [⟨0, ⟨4, 3, some 1⟩, "h"⟩] =
      (⟨[], ∅, 3, []⟩, some ⟨[0], []⟩) := by
  have h := (claim7_disable_clears
    ⟨[(4, ⟨0, 0, [(0, ⟨3, Option.none, "h"⟩)]⟩)], {Option.none}, 2, [(4, 1)]⟩
    ⟨fun _ => Option.none, []⟩ ⟨false, false, false, false⟩
    [⟨0, ⟨4, 3, some 1⟩, "h"⟩] rfl).1 (by decide)
  simpa using h

/-- C10: applySettings with the feature enabled and an unchanged derived
kind set returns None and leaves every component of the cache untouched. -/
theorem claim10_noop_settings :
    ∀ (c : InlayHintCache) (m : MultiBufferModel) (s : InlayHintSettings)
      (visible : List Inlay),
      s.enabled = true →
      allowedHintTypes s = c.allowed_hint_kinds →
      updateSettings c m s visible = (c, Option.none) := by
  intro c m s visible hs hk
  simp [updateSettings, hs, hk]

theorem claim10_witness :
    updateSettings ⟨[(1, ⟨0, 0, []⟩)], {some InlayHintKind.type}, 5, []⟩
        ⟨fun _ => Option.none, []⟩ ⟨true, true, false, false⟩ [] =
      (⟨[(1, ⟨0, 0, []⟩)], {some InlayHintKind.type}, 5, []⟩, Option.none) :=
  claim10_noop_settings _ _ _ _ rfl (by decide)

/-- C6: the per-region decision of the refresh scheduler follows the
dispatch-version rule: no recorded task proceeds; a recorded version
below the dispatch version proceeds; an equal version proceeds exactly
when the strategy invalidates (All or OnConflict); a greater version is
skipped.  The final conjunct grounds the rule in spawn_hints_update
itself: a region survives its filtering exactly when, after the
invalidating bookkeeping drop, the decision for it is positive. -/
theorem claim6_dispatch_rule :
    ∀ (update_tasks : List (Nat × Nat)) (excerpts_to_query : List Nat)
      (cache_version : Nat) (strategy : InvalidationStrategy) (e : Nat),
      (List.lookup e update_tasks = Option.none →
        spawnRetainDecision update_tasks cache_version (invalidateCache strategy) e = true) ∧
      (∀ v, List.lookup e update_tasks = some v →
        (v < cache_version →
          spawnRetainDecision update_tasks cache_version (invalidateCache strategy) e = true) ∧
        (v = cache_version →
          (spawnRetainDecision update_tasks cache_version (invalidateCache strategy) e = true ↔
            (strategy = InvalidationStrategy.all ∨
              strategy = InvalidationStrategy.onConflict))) ∧
        (cache_version < v →
          spawnRetainDecision update_tasks cache_version (invalidateCache strategy) e = false)) ∧
      (e ∈ (spawnFilter update_tasks excerpts_to_query cache_version strategy).2 ↔
        (e ∈ excerpts_to_query ∧
          spawnRetainDecision
            (if invalidateCache strategy then
              update_tasks.filter (fun t => t.1 ∈ excerpts_to_query)
            else update_tasks)
            cache_version (invalidateCache strategy) e = true)) := by
  intro update_tasks excerpts_to_query cache_version strategy e
  refine ⟨?_, ?_, ?_⟩
  · intro hl
    simp [spawnRetainDecision, hl]
  · intro v hl
    refine ⟨?_, ?_, ?_⟩
    · intro hv
      simp [spawnRetainDecision, hl, Nat.compare_eq_lt.mpr hv]
    · intro hv
      subst hv
      have hcmp : compare v v = Ordering.eq := Nat.compare_eq_eq.mpr rfl
      simp only [spawnRetainDecision, hl, hcmp]
      cases strategy <;> simp [invalidateCache]
    · intro hv
      simp [spawnRetainDecision, hl, Nat.compare_eq_gt.mpr hv]
  · set inv := invalidateCache strategy with hinv
    set tasks1 := if inv then update_tasks.filter (fun t => t.1 ∈ excerpts_to_query)
      else update_tasks with htasks1
    set ex1 := excerpts_to_query.filter (spawnRetainDecision tasks1 cache_version inv)
      with hex1
    have hlook : ∀ x, x ∈ ex1 →
        List.lookup x (if inv then tasks1.filter (fun t => t.1 ∈ ex1) else tasks1) =
          List.lookup x tasks1 := by
      intro x hx
      by_cases hi : inv = true
      · rw [if_pos hi]
        exact lookup_filter_of_key_true tasks1 (fun k => decide (k ∈ ex1)) x (by simp [hx])
      · rw [if_neg hi]
    have hsame : ∀ x, x ∈ ex1 →
        spawnRetainDecision (if inv then tasks1.filter (fun t => t.1 ∈ ex1) else tasks1)
          cache_version inv x = spawnRetainDecision tasks1 cache_version inv x := by
      intro x hx
      unfold spawnRetainDecision
      rw [hlook x hx]
    have hmem2 : (spawnFilter update_tasks excerpts_to_query cache_version strategy).2 = ex1 := by
      show (ex1.filter (spawnRetainDecision
        (if inv then tasks1.filter (fun t => t.1 ∈ ex1) else tasks1) cache_version inv)) = ex1
      apply List.filter_eq_self.mpr
      intro x hx
      rw [hsame x hx]
      exact (List.mem_filter.mp hx).2
    rw [hmem2, hex1, List.mem_filter]

theorem claim6_witness :
    (spawnRetainDecision [(1, 2)] 5 (invalidateCache InvalidationStrategy.none) 1 = true) ∧
    (spawnRetainDecision [(1, 5)] 5 (invalidateCache InvalidationStrategy.onConflict) 1 = true ↔
      (InvalidationStrategy.onConflict = InvalidationStrategy.all ∨
        InvalidationStrategy.onConflict = InvalidationStrategy.onConflict)) ∧
    (spawnRetainDecision [(1, 7)] 5 (invalidateCache InvalidationStrategy.all) 1 = false) ∧
    (spawnRetainDecision [] 5 (invalidateCache InvalidationStrategy.all) 1 = true) ∧
    ((1 : Nat) ∈ (spawnFilter [(1, 7)] [1, 2] 5 InvalidationStrategy.all).2 ↔
      ((1 : Nat) ∈ [1, 2] ∧
        spawnRetainDecision
          (if invalidateCache InvalidationStrategy.all then
            List.filter (fun t => t.1 ∈ [1, 2]) [(1, 7)]
          else [(1, 7)])
          5 (invalidateCache InvalidationStrategy.all) 1 = true)) :=
  ⟨((claim6_dispatch_rule [(1, 2)] [] 5 InvalidationStrategy.none 1).2.1 2 rfl).1 (by decide),
   ((claim6_dispatch_rule [(1, 5)] [] 5 InvalidationStrategy.onConflict 1).2.1 5 rfl).2.1 rfl,
   ((claim6_dispatch_rule [(1, 7)] [] 5 InvalidationStrategy.all 1).2.1 7 rfl).2.2 (by decide),
   (claim6_dispatch_rule [] [] 5 InvalidationStrategy.all 1).1 rfl,
   (claim6_dispatch_rule [(1, 7)] [1, 2] 5 InvalidationStrategy.all 1).2.2⟩

/-- C2: under strategy None the diff schedules nothing for removal; under
an invalidating strategy it schedules for visible removal exactly the
visible hints of the queried region (matching excerpt, position inside
the span) whose id was not persisted, and for cache removal exactly the
cached ids not persisted, visibility notwithstanding; and a non-empty
diff result carries exactly these sets. -/
theorem claim2_removal_sets :
    ∀ (q : ExcerptQuery) (fetched : List InlayHint) (cached : Option CachedExcerptHints)
      (visible : List Inlay),
      (q.invalidate = InvalidationStrategy.none →
        excerptRemoveFromVisible q (hintsToPersistAndAdd q cached fetched).1 visible = [] ∧
        excerptRemoveFromCache q (hintsToPersistAndAdd q cached fetched).1 cached = ∅) ∧
      (invalidateCache q.invalidate = true →
        (∀ id : Nat,
          id ∈ excerptRemoveFromVisible q (hintsToPersistAndAdd q cached fetched).1 visible ↔
            ∃ inlay, inlay ∈ visible ∧ inlay.position.excerpt_id = q.excerpt_id ∧
              q.containsPosition inlay.position.text_anchor = true ∧ inlay.id = id ∧
              containsKey (hintsToPersistAndAdd q cached fetched).1 id = false) ∧
        (∀ (c : CachedExcerptHints), cached = some c →
          ∀ id : Nat,
            id ∈ excerptRemoveFromCache q (hintsToPersistAndAdd q cached fetched).1 cached ↔
              ∃ h, (id, h) ∈ c.hints ∧
                containsKey (hintsToPersistAndAdd q cached fetched).1 id = false) ∧
        (cached = Option.none →
          excerptRemoveFromCache q (hintsToPersistAndAdd q cached fetched).1 cached = ∅)) ∧
      (∀ u, newExcerptHintsUpdateResult q fetched cached visible = some u →
        u.remove_from_visible =
          excerptRemoveFromVisible q (hintsToPersistAndAdd q cached fetched).1 visible ∧
        u.remove_from_cache =
          excerptRemoveFromCache q (hintsToPersistAndAdd q cached fetched).1 cached ∧
        u.add_to_cache = (hintsToPersistAndAdd q cached fetched).2) := by
  intro q fetched cached visible
  refine ⟨?_, ?_, ?_⟩
  · intro hnone
    constructor
    · simp [excerptRemoveFromVisible, hnone, invalidateCache]
    · simp [excerptRemoveFromCache, hnone, invalidateCache]
  · intro hinv
    refine ⟨?_, ?_, ?_⟩
    · intro id
      simp only [excerptRemoveFromVisible, hinv, if_pos rfl]
      constructor
      · intro hid
        obtain ⟨hid1, hid2⟩ := List.mem_filter.mp hid
        obtain ⟨inlay, hin, rfl⟩ := List.mem_map.mp hid1
        obtain ⟨hin1, hin2⟩ := List.mem_filter.mp hin
        obtain ⟨hin0, hin3⟩ := List.mem_filter.mp hin1
        refine ⟨inlay, hin0, by simpa using hin3, hin2, rfl, by simpa using hid2⟩
      · intro ⟨inlay, hmem, hexc, hpos, hid, hkey⟩
        subst hid
        refine List.mem_filter.mpr ⟨?_, by simp [hkey]⟩
        exact List.mem_map.mpr ⟨inlay,
          List.mem_filter.mpr ⟨List.mem_filter.mpr ⟨hmem, by simp [hexc]⟩, hpos⟩, rfl⟩
    · intro c hc id
      subst hc
      simp only [excerptRemoveFromCache, hinv, if_true]
      rw [List.mem_toFinset]
      constructor
      · intro hid
        obtain ⟨p, hp, rfl⟩ := List.mem_map.mp hid
        obtain ⟨hp1, hp2⟩ := List.mem_filter.mp hp
        exact ⟨p.2, hp1, by simpa using hp2⟩
      · intro ⟨h, hmem, hkey⟩
        exact List.mem_map.mpr ⟨(id, h), List.mem_filter.mpr ⟨hmem, by simp [hkey]⟩, rfl⟩
    · intro hc
      subst hc
      simp [excerptRemoveFromCache, hinv]
  · intro u hu
    simp only [newExcerptHintsUpdateResult] at hu
    split at hu
    · exact absurd hu (by simp)
    · obtain rfl : _ = u := Option.some_injective _ hu
      exact ⟨rfl, rfl, rfl⟩

theorem claim2_witness :
    (excerptRemoveFromVisible ⟨9, 7, 0, 100, 4, InvalidationStrategy.none⟩
      (hintsToPersistAndAdd ⟨9, 7, 0, 100, 4, InvalidationStrategy.none⟩ Option.none []).1
      [⟨2, ⟨7, 10, some 9⟩, "p"⟩] = [] ∧
     excerptRemoveFromCache ⟨9, 7, 0, 100, 4, InvalidationStrategy.none⟩
      (hintsToPersistAndAdd ⟨9, 7, 0, 100, 4, InvalidationStrategy.none⟩ Option.none []).1
      Option.none = ∅) ∧
    ((2 : Nat) ∈ excerptRemoveFromVisible ⟨9, 7, 0, 100, 4, InvalidationStrategy.onConflict⟩
      (hintsToPersistAndAdd ⟨9, 7, 0, 100, 4, InvalidationStrategy.onConflict⟩ Option.none []).1
      [⟨2, ⟨7, 10, some 9⟩, "p"⟩] ↔
      ∃ inlay, inlay ∈ [(⟨2, ⟨7, 10, some 9⟩, "p"⟩ : Inlay)] ∧
        inlay.position.excerpt_id = 7 ∧
        ExcerptQuery.containsPosition ⟨9, 7, 0, 100, 4, InvalidationStrategy.onConflict⟩
          inlay.position.text_anchor = true ∧ inlay.id = 2 ∧
        containsKey (hintsToPersistAndAdd ⟨9, 7, 0, 100, 4, InvalidationStrategy.onConflict⟩
          Option.none []).1 2 = false) :=
  ⟨(claim2_removal_sets ⟨9, 7, 0, 100, 4, InvalidationStrategy.none⟩ [] Option.none
      [⟨2, ⟨7, 10, some 9⟩, "p"⟩]).1 rfl,
   ((claim2_removal_sets ⟨9, 7, 0, 100, 4, InvalidationStrategy.onConflict⟩ [] Option.none
      [⟨2, ⟨7, 10, some 9⟩, "p"⟩]).2.1 (by decide)).1 2⟩

/-- Dropping the out-of-span fetched hints in advance does not change the
persist/add classification: the loop skips them individually. -/
theorem hintsToPersistAndAdd_filter_span (q : ExcerptQuery)
    (cached : Option CachedExcerptHints) :
    ∀ fetched : List InlayHint,
      hintsToPersistAndAdd q cached
          (fetched.filter (fun h => q.containsPosition h.position)) =
        hintsToPersistAndAdd q cached fetched := by
  intro fetched
  induction fetched with
  | nil => rfl
  | cons h rest ih =>
    by_cases hc : q.containsPosition h.position = true
    · cases hm : cachedMatch cached h with
      | none => simp [List.filter, hc, hintsToPersistAndAdd, hm, ih]
      | some entry => simp [List.filter, hc, hintsToPersistAndAdd, hm, ih]
    · have hc2 : q.containsPosition h.position = false := by
        simpa using hc
      simp [List.filter, hc2, hintsToPersistAndAdd, ih]

/-- C9: a fetched hint whose position lies outside the queried span is
dropped individually — the diff over the fetched batch equals the diff
over the batch with out-of-span hints pre-filtered away, so such a hint
never reaches the persist set or add_to_cache (hence neither the cache
nor the visible set), and every hint classified to-add lies in the span. -/
theorem claim9_out_of_span_dropped :
    ∀ (q : ExcerptQuery) (fetched : List InlayHint) (cached : Option CachedExcerptHints)
      (visible : List Inlay),
      newExcerptHintsUpdateResult q fetched cached visible =
        newExcerptHintsUpdateResult q
          (fetched.filter (fun h => q.containsPosition h.position)) cached visible ∧
      (∀ h ∈ (hintsToPersistAndAdd q cached fetched).2,
        q.containsPosition h.position = true) := by
  intro q fetched cached visible
  constructor
  · simp only [newExcerptHintsUpdateResult, hintsToPersistAndAdd_filter_span]
  · induction fetched with
    | nil => intro h hh; cases hh
    | cons h0 rest ih =>
      intro h hh
      by_cases hc : q.containsPosition h0.position = true
      · cases hm : cachedMatch cached h0 with
        | none =>
          simp only [hintsToPersistAndAdd, hc, if_true, hm] at hh
          rcases List.mem_cons.mp hh with rfl | hh2
          · exact hc
          · exact ih h hh2
        | some entry =>
          simp only [hintsToPersistAndAdd, hc, if_true, hm] at hh
          exact ih h hh
      · have hc2 : q.containsPosition h0.position = false := by simpa using hc
        simp [hintsToPersistAndAdd, hc2] at hh
        exact ih h hh

theorem claim9_witness :
    (newExcerptHintsUpdateResult ⟨9, 7, 10, 20, 0, InvalidationStrategy.none⟩
        [⟨5, some InlayHintKind.type, "out"⟩, ⟨15, some InlayHintKind.type, "in"⟩]
        Option.none [] =
      newExcerptHintsUpdateResult ⟨9, 7, 10, 20, 0, InvalidationStrategy.none⟩
        (List.filter (fun h =>
            ExcerptQuery.containsPosition ⟨9, 7, 10, 20, 0, InvalidationStrategy.none⟩ h.position)
          [⟨5, some InlayHintKind.type, "out"⟩, ⟨15, some InlayHintKind.type, "in"⟩])
        Option.none []) ∧
    ExcerptQuery.containsPosition ⟨9, 7, 10, 20, 0, InvalidationStrategy.none⟩
      (15 : Nat) = true :=
  ⟨(claim9_out_of_span_dropped ⟨9, 7, 10, 20, 0, InvalidationStrategy.none⟩
      [⟨5, some InlayHintKind.type, "out"⟩, ⟨15, some InlayHintKind.type, "in"⟩]
      Option.none []).1,
   (claim9_out_of_span_dropped ⟨9, 7, 10, 20, 0, InvalidationStrategy.none⟩
      [⟨5, some InlayHintKind.type, "out"⟩, ⟨15, some InlayHintKind.type, "in"⟩]
      Option.none []).2 ⟨15, some InlayHintKind.type, "in"⟩ (by decide)⟩

/-- Closed form of the add_to_cache loop: the minted identities are the
consecutive naturals starting at the counter, zipped with the added hints
in order; the splice insertions are exactly the kind-allowed ones; the
counter advances by the number of additions. -/
theorem addLoop_spec (allowed : Finset (Option InlayHintKind)) (m : MultiBufferModel)
    (q : ExcerptQuery) :
    ∀ (adds : List InlayHint) (next : Nat),
      addLoop allowed m q next adds =
        ((((List.range' next adds.length).zip adds).filter
            (fun p => decide (p.2.kind ∈ allowed))).map
          (fun p => (anchorInExcerpt m q.excerpt_id p.2.position, p.1, p.2)),
         (List.range' next adds.length).zip adds,
         next + adds.length) := by
  intro adds
  induction adds with
  | nil => intro next; simp [addLoop]
  | cons h rest ih =>
    intro next
    rw [addLoop, ih (next + 1)]
    have hr : List.range' next (h :: rest).length = next :: List.range' (next + 1) rest.length := by
      rw [List.length_cons, List.range'_succ]
    rw [hr]
    by_cases hk : h.kind ∈ allowed
    · simp [List.filter, hk]
      exact ⟨rfl, by omega⟩
    · simp [List.filter, hk]
      exact ⟨rfl, by omega⟩

/-- C8: at commit time (proceed path), every to-add hint is paired with a
fresh monotonically increasing identity — the k-th addition receives id
next_inlay_id + k and the counter advances by the number of additions —
and is stored in the committed region's cache entry whatever its kind,
while the emitted splice's insertion list consists exactly of the added
hints whose kind belongs to the current allowedKinds. -/
theorem claim8_fresh_ids :
    ∀ (st : EditorState) (m : MultiBufferModel) (q : ExcerptQuery)
      (u : ExcerptHintsUpdate) (bv : Nat),
      (∀ c, List.lookup u.excerpt_id st.cache.hints = some c →
        ¬ u.cache_version < c.version) →
      ((commitUpdate st m q u bv).1.next_inlay_id =
        st.next_inlay_id + u.add_to_cache.length) ∧
      (∃ c2, List.lookup u.excerpt_id (commitUpdate st m q u bv).1.cache.hints = some c2 ∧
        ∀ p ∈ (List.range' st.next_inlay_id u.add_to_cache.length).zip u.add_to_cache,
          p ∈ c2.hints) ∧
      ((match (commitUpdate st m q u bv).2 with
        | some sp => sp.to_insert
        | Option.none => []) =
        (((List.range' st.next_inlay_id u.add_to_cache.length).zip u.add_to_cache).filter
            (fun p => decide (p.2.kind ∈ st.cache.allowed_hint_kinds))).map
          (fun p => (anchorInExcerpt m q.excerpt_id p.2.position, p.1, p.2))) := by
  intro st m q u bv hguard
  have main : ∀ c : CachedExcerptHints,
      ((commitProceed st m q u bv c).1.next_inlay_id =
        st.next_inlay_id + u.add_to_cache.length) ∧
      (∃ c2, List.lookup u.excerpt_id (commitProceed st m q u bv c).1.cache.hints = some c2 ∧
        ∀ p ∈ (List.range' st.next_inlay_id u.add_to_cache.length).zip u.add_to_cache,
          p ∈ c2.hints) ∧
      ((match (commitProceed st m q u bv c).2 with
        | some sp => sp.to_insert
        | Option.none => []) =
        (((List.range' st.next_inlay_id u.add_to_cache.length).zip u.add_to_cache).filter
            (fun p => decide (p.2.kind ∈ st.cache.allowed_hint_kinds))).map
          (fun p => (anchorInExcerpt m q.excerpt_id p.2.position, p.1, p.2))) := by
    intro c
    refine ⟨?_, ?_, ?_⟩
    · show (addLoop st.cache.allowed_hint_kinds m q st.next_inlay_id u.add_to_cache).2.2 =
        st.next_inlay_id + u.add_to_cache.length
      rw [addLoop_spec]
    · refine ⟨⟨u.cache_version, bv,
          List.insertionSort hintPosLe
            ((c.hints.filter (fun p => p.1 ∉ u.remove_from_cache)) ++
             (addLoop st.cache.allowed_hint_kinds m q st.next_inlay_id u.add_to_cache).2.1)⟩,
        ?_, ?_⟩
      · rw [commitProceed_fst_hints]
        exact lookup_updateEntry_self _ _ _
      · intro p hp
        have hmem : p ∈ (c.hints.filter (fun p => p.1 ∉ u.remove_from_cache)) ++
            (addLoop st.cache.allowed_hint_kinds m q st.next_inlay_id u.add_to_cache).2.1 := by
          refine List.mem_append_right _ ?_
          have hz : (addLoop st.cache.allowed_hint_kinds m q st.next_inlay_id u.add_to_cache).2.1 =
              (List.range' st.next_inlay_id u.add_to_cache.length).zip u.add_to_cache := by
            rw [addLoop_spec]
          rw [hz]
          exact hp
        exact (List.perm_insertionSort hintPosLe _).mem_iff.mpr hmem
    · show (match (if (u.remove_from_visible.isEmpty &&
          (addLoop st.cache.allowed_hint_kinds m q st.next_inlay_id u.add_to_cache).1.isEmpty)
          then Option.none
          else some (⟨u.remove_from_visible,
            (addLoop st.cache.allowed_hint_kinds m q st.next_inlay_id u.add_to_cache).1⟩ :
              InlaySplice)) with
        | some sp => sp.to_insert
        | Option.none => []) = _
      by_cases hemp : (u.remove_from_visible.isEmpty &&
          (addLoop st.cache.allowed_hint_kinds m q st.next_inlay_id u.add_to_cache).1.isEmpty) = true
      · rw [if_pos hemp]
        have h2 := (Bool.and_eq_true _ _).mp hemp
        have h3 : (addLoop st.cache.allowed_hint_kinds m q st.next_inlay_id u.add_to_cache).1 = [] :=
          List.isEmpty_iff.mp h2.2
        have h4 : (addLoop st.cache.allowed_hint_kinds m q st.next_inlay_id u.add_to_cache).1 =
            (((List.range' st.next_inlay_id u.add_to_cache.length).zip u.add_to_cache).filter
                (fun p => decide (p.2.kind ∈ st.cache.allowed_hint_kinds))).map
              (fun p => (anchorInExcerpt m q.excerpt_id p.2.position, p.1, p.2)) := by
          rw [addLoop_spec]
        show ([] : List (Anchor × Nat × InlayHint)) = _
        rw [← h4, h3]
      · rw [if_neg hemp]
        show (addLoop st.cache.allowed_hint_kinds m q st.next_inlay_id u.add_to_cache).1 = _
        rw [addLoop_spec]
  have hcommit : ∃ c, commitUpdate st m q u bv = commitProceed st m q u bv c := by
    unfold commitUpdate
    cases hl : List.lookup u.excerpt_id st.cache.hints with
    | none => exact ⟨_, rfl⟩
    | some c =>
      refine ⟨c, ?_⟩
      show (if u.cache_version < c.version then (st, Option.none)
        else commitProceed st m q u bv c) = commitProceed st m q u bv c
      rw [if_neg (hguard c hl)]
  obtain ⟨c, hc⟩ := hcommit
  rw [hc]
  exact main c

theorem claim8_witness :
    ((commitUpdate ⟨⟨[], {some InlayHintKind.type}, 0, []⟩, 5⟩ ⟨fun _ => some 9, [9]⟩
        ⟨9, 7, 0, 100, 1, InvalidationStrategy.all⟩
        ⟨7, 1, [], ∅, [⟨4, some InlayHintKind.type, "t"⟩, ⟨6, some InlayHintKind.parameter, "p"⟩]⟩
        3).1.next_inlay_id = 5 + 2) ∧
    (∃ c2, List.lookup 7 (commitUpdate ⟨⟨[], {some InlayHintKind.type}, 0, []⟩, 5⟩
        ⟨fun _ => some 9, [9]⟩ ⟨9, 7, 0, 100, 1, InvalidationStrategy.all⟩
        ⟨7, 1, [], ∅, [⟨4, some InlayHintKind.type, "t"⟩, ⟨6, some InlayHintKind.parameter, "p"⟩]⟩
        3).1.cache.hints = some c2 ∧
      ∀ p ∈ (List.range' 5 2).zip
          [(⟨4, some InlayHintKind.type, "t"⟩ : InlayHint), ⟨6, some InlayHintKind.parameter, "p"⟩],
        p ∈ c2.hints) ∧
    ((match (commitUpdate ⟨⟨[], {some InlayHintKind.type}, 0, []⟩, 5⟩ ⟨fun _ => some 9, [9]⟩
        ⟨9, 7, 0, 100, 1, InvalidationStrategy.all⟩
        ⟨7, 1, [], ∅, [⟨4, some InlayHintKind.type, "t"⟩, ⟨6, some InlayHintKind.parameter, "p"⟩]⟩
        3).2 with
      | some sp => sp.to_insert
      | Option.none => []) =
      (((List.range' 5 2).zip
          [(⟨4, some InlayHintKind.type, "t"⟩ : InlayHint), ⟨6, some InlayHintKind.parameter, "p"⟩]).filter
          (fun p => decide (p.2.kind ∈ ({some InlayHintKind.type} : Finset (Option InlayHintKind))))).map
        (fun p => (anchorInExcerpt ⟨fun _ => some 9, [9]⟩ 7 p.2.position, p.1, p.2))) :=
  claim8_fresh_ids ⟨⟨[], {some InlayHintKind.type}, 0, []⟩, 5⟩ ⟨fun _ => some 9, [9]⟩
    ⟨9, 7, 0, 100, 1, InvalidationStrategy.all⟩
    ⟨7, 1, [], ∅, [⟨4, some InlayHintKind.type, "t"⟩, ⟨6, some InlayHintKind.parameter, "p"⟩]⟩
    3 (fun c hc => by simp [List.lookup] at hc)

/-- C4 counterexample: committing a fetched batch that carries two
different hints at one position (which the diff classifies as two
additions) stores two entries at the same position under two distinct
HintIds, so the cached sequence is NOT strictly ordered — already under
strategy All, and a fortiori under None. -/
theorem claim4_counterexample :
    ((applyFetchResult ⟨⟨[], {some InlayHintKind.type}, 0, []⟩, 0⟩
        ⟨fun _ => some 9, [9]⟩ ⟨9, 7, 0, 100, 0, InvalidationStrategy.all⟩ [] 0
        [⟨5, some InlayHintKind.type, "a"⟩, ⟨5, some InlayHintKind.type, "b"⟩]).1.cache.hints =
      [(7, ⟨0, 0, [(0, ⟨5, some InlayHintKind.type, "a"⟩),
                   (1, ⟨5, some InlayHintKind.type, "b"⟩)]⟩)]) ∧
    ¬ List.Pairwise (fun a b => a.2.position < b.2.position)
      [((0 : Nat), (⟨5, some InlayHintKind.type, "a"⟩ : InlayHint)),
       (1, ⟨5, some InlayHintKind.type, "b"⟩)] := by
  constructor
  · decide
  · decide

/-- C4 (amended): after every commit, the committed region's cached hint
sequence is sorted in non-decreasing position order (assuming the stored
entry was sorted beforehand, as every entry the commit path ever writes
is), and every other region's entry is untouched.  Strictness with
distinct identities can fail: the source never deduplicates same-position
hints with different content, so two entries at one position with two
HintIds arise from a batch with a duplicated position, or under strategy
None when a changed hint is re-added beside the stale cached one. -/
theorem claim4_sorted_after_commit :
    ∀ (st : EditorState) (m : MultiBufferModel) (q : ExcerptQuery)
      (u : ExcerptHintsUpdate) (bv : Nat),
      (∀ c, List.lookup u.excerpt_id st.cache.hints = some c →
        List.Sorted hintPosLe c.hints) →
      (∀ c2, List.lookup u.excerpt_id (commitUpdate st m q u bv).1.cache.hints = some c2 →
        List.Sorted hintPosLe c2.hints) ∧
      (∀ e, e ≠ u.excerpt_id →
        List.lookup e (commitUpdate st m q u bv).1.cache.hints =
          List.lookup e st.cache.hints) := by
  intro st m q u bv hsorted
  have hproceed : ∀ c : CachedExcerptHints,
      (∀ c2, List.lookup u.excerpt_id (commitProceed st m q u bv c).1.cache.hints = some c2 →
        List.Sorted hintPosLe c2.hints) ∧
      (∀ e, e ≠ u.excerpt_id →
        List.lookup e (commitProceed st m q u bv c).1.cache.hints =
          List.lookup e st.cache.hints) := by
    intro c
    constructor
    · intro c2 hc2
      rw [commitProceed_fst_hints, lookup_updateEntry_self] at hc2
      obtain rfl : _ = c2 := Option.some_injective _ hc2
      exact List.sorted_insertionSort hintPosLe _
    · intro e he
      rw [commitProceed_fst_hints]
      exact lookup_updateEntry_ne _ _ _ _ he
  cases hl : List.lookup u.excerpt_id st.cache.hints with
  | none =>
    have he : commitUpdate st m q u bv =
        commitProceed st m q u bv ⟨u.cache_version, bv, []⟩ := by
      unfold commitUpdate
      rw [hl]
    rw [he]
    exact hproceed _
  | some c =>
    by_cases hlt : u.cache_version < c.version
    · have he : commitUpdate st m q u bv = (st, Option.none) := by
        unfold commitUpdate
        rw [hl]
        show (if u.cache_version < c.version then ((st, Option.none) : EditorState × Option InlaySplice)
          else commitProceed st m q u bv c) = (st, Option.none)
        rw [if_pos hlt]
      rw [he]
      exact ⟨fun c2 hc2 => by
        rw [hl] at hc2
        obtain rfl : _ = c2 := Option.some_injective _ hc2
        exact hsorted c hl,
        fun e _ => rfl⟩
    · have he : commitUpdate st m q u bv = commitProceed st m q u bv c := by
        unfold commitUpdate
        rw [hl]
        show (if u.cache_version < c.version then ((st, Option.none) : EditorState × Option InlaySplice)
          else commitProceed st m q u bv c) = commitProceed st m q u bv c
        rw [if_neg hlt]
      rw [he]
      exact hproceed c

theorem claim4_witness :
    (∀ c2, List.lookup 7 (commitUpdate ⟨⟨[], ∅, 0, []⟩, 0⟩ ⟨fun _ => some 9, [9]⟩
        ⟨9, 7, 0, 100, 0, InvalidationStrategy.all⟩
        ⟨7, 0, [], ∅, [⟨8, Option.none, "z"⟩, ⟨2, Option.none, "y"⟩]⟩ 0).1.cache.hints =
          some c2 →
      List.Sorted hintPosLe c2.hints) ∧
    (∀ e, e ≠ 7 →
      List.lookup e (commitUpdate ⟨⟨[], ∅, 0, []⟩, 0⟩ ⟨fun _ => some 9, [9]⟩
        ⟨9, 7, 0, 100, 0, InvalidationStrategy.all⟩
        ⟨7, 0, [], ∅, [⟨8, Option.none, "z"⟩, ⟨2, Option.none, "y"⟩]⟩ 0).1.cache.hints =
          List.lookup e ([] : List (Nat × CachedExcerptHints))) :=
  claim4_sorted_after_commit ⟨⟨[], ∅, 0, []⟩, 0⟩ ⟨fun _ => some 9, [9]⟩
    ⟨9, 7, 0, 100, 0, InvalidationStrategy.all⟩
    ⟨7, 0, [], ∅, [⟨8, Option.none, "z"⟩, ⟨2, Option.none, "y"⟩]⟩ 0
    (fun c hc => by simp [List.lookup] at hc)

/-- Soundness of the binary search worker: an ok result lies in the
searched interval and its probe compares equal. -/
theorem binarySearchGo_ok {α : Type} (f : α → Ordering) (xs : List α) (dflt : α) :
    ∀ (fuel left right ix : Nat),
      binarySearchGo f xs dflt fuel left right = Except.ok ix →
      left ≤ ix ∧ ix < right ∧ f (xs.getD ix dflt) = Ordering.eq := by
  intro fuel
  induction fuel with
  | zero =>
    intro l r ix h
    exact absurd h (by simp [binarySearchGo])
  | succ fuel ih =>
    intro l r ix h
    rw [binarySearchGo] at h
    by_cases hlr : l < r
    · rw [if_pos hlr] at h
      cases hcmp : f (xs.getD (l + (r - l) / 2) dflt) with
      | lt =>
        rw [hcmp] at h
        have := ih (l + (r - l) / 2 + 1) r ix h
        exact ⟨by omega, this.2.1, this.2.2⟩
      | gt =>
        rw [hcmp] at h
        have := ih l (l + (r - l) / 2) ix h
        exact ⟨this.1, by omega, this.2.2⟩
      | eq =>
        rw [hcmp] at h
        obtain rfl : _ = ix := Except.ok.inj h
        exact ⟨by omega, by omega, hcmp⟩
    · rw [if_neg hlr] at h
      exact absurd h (by simp)

/-- Completeness of the binary search worker over a list whose key is
monotone along indices: when some index in the interval carries the
target key and the fuel covers the interval, the search succeeds. -/
theorem binarySearchGo_complete {α : Type} (f : α → Ordering) (key : α → Nat) (t : Nat)
    (xs : List α) (dflt : α)
    (hf : ∀ a, f a = compare (key a) t)
    (hmono : ∀ i j, i ≤ j → j < xs.length →
      key (xs.getD i dflt) ≤ key (xs.getD j dflt)) :
    ∀ (fuel left right : Nat), right ≤ xs.length → right - left < fuel →
      (∃ j, left ≤ j ∧ j < right ∧ key (xs.getD j dflt) = t) →
      ∃ ix, binarySearchGo f xs dflt fuel left right = Except.ok ix := by
  intro fuel
  induction fuel with
  | zero =>
    intro l r _ hfuel hj
    exact absurd hfuel (by omega)
  | succ fuel ih =>
    intro l r hr hfuel hj
    obtain ⟨j, hj1, hj2, hj3⟩ := hj
    have hlr : l < r := lt_of_le_of_lt hj1 hj2
    rw [binarySearchGo, if_pos hlr]
    have hmidr : l + (r - l) / 2 < r := by omega
    have hmidlen : l + (r - l) / 2 < xs.length := lt_of_lt_of_le hmidr hr
    rw [hf (xs.getD (l + (r - l) / 2) dflt)]
    cases hcmp : compare (key (xs.getD (l + (r - l) / 2) dflt)) t with
    | eq => exact ⟨l + (r - l) / 2, rfl⟩
    | lt =>
      have hklt : key (xs.getD (l + (r - l) / 2) dflt) < t := Nat.compare_eq_lt.mp hcmp
      have hjmid : l + (r - l) / 2 < j := by
        by_contra hle
        push_neg at hle
        have := hmono j (l + (r - l) / 2) hle hmidlen
        omega
      exact ih (l + (r - l) / 2 + 1) r hr (by omega) ⟨j, by omega, hj2, hj3⟩
    | gt =>
      have hkgt : t < key (xs.getD (l + (r - l) / 2) dflt) := Nat.compare_eq_gt.mp hcmp
      have hjmid : j < l + (r - l) / 2 := by
        by_contra hle
        push_neg at hle
        have := hmono (l + (r - l) / 2) j hle (lt_of_lt_of_le hj2 hr)
        omega
      exact ih l (l + (r - l) / 2) (le_trans (le_of_lt hmidr) hr) (by omega)
        ⟨j, hj1, hjmid, hj3⟩

/-- In a strictly position-sorted cache entry, looking a stored hint up
by its own value finds exactly its stored identity and kind. -/
theorem cachedMatch_of_mem (c : CachedExcerptHints)
    (hsort : List.Pairwise (fun a b => a.2.position < b.2.position) c.hints)
    (e : Nat × InlayHint) (he : e ∈ c.hints) :
    cachedMatch (some c) e.2 = some (e.1, e.2.kind) := by
  obtain ⟨j, hj⟩ := List.mem_iff_get.mp he
  have hpair := List.pairwise_iff_get.mp hsort
  have hmono : ∀ i k, i ≤ k → k < c.hints.length →
      (c.hints.getD i (0, default)).2.position ≤ (c.hints.getD k (0, default)).2.position := by
    intro i k hik hk
    have hi : i < c.hints.length := lt_of_le_of_lt hik hk
    rw [List.getD_eq_get c.hints (0, default) hi, List.getD_eq_get c.hints (0, default) hk]
    rcases Nat.lt_or_ge i k with hlt | hge
    · exact le_of_lt (hpair ⟨i, hi⟩ ⟨k, hk⟩ hlt)
    · have : i = k := le_antisymm hik hge
      subst this
      exact le_refl _
  obtain ⟨ix, hix⟩ := binarySearchGo_complete
    (fun probe => compare probe.2.position e.2.position)
    (fun p => p.2.position) e.2.position c.hints (0, default)
    (fun a => rfl) hmono (c.hints.length + 1) 0 c.hints.length (le_refl _)
    (by omega)
    ⟨j.val, Nat.zero_le _, j.isLt, by
      show (c.hints.getD j.val (0, default)).2.position = e.2.position
      rw [List.getD_eq_get c.hints (0, default) j.isLt, hj]⟩
  have hsound := binarySearchGo_ok _ c.hints (0, default) _ _ _ _ hix
  have hixlen : ix < c.hints.length := hsound.2.1
  have hpos : (c.hints.getD ix (0, default)).2.position = e.2.position :=
    Nat.compare_eq_eq.mp hsound.2.2
  have hixj : ix = j.val := by
    rcases lt_trichotomy ix j.val with hlt | heq | hgt
    · have := hpair ⟨ix, hixlen⟩ j hlt
      rw [hj] at this
      rw [List.getD_eq_get c.hints (0, default) hixlen] at hpos
      omega
    · exact heq
    · have := hpair j ⟨ix, hixlen⟩ hgt
      rw [hj] at this
      rw [List.getD_eq_get c.hints (0, default) hixlen] at hpos
      omega
  have hgete : c.hints.getD ix (0, default) = e := by
    rw [List.getD_eq_get c.hints (0, default) hixlen]
    have : (⟨ix, hixlen⟩ : Fin c.hints.length) = j := Fin.ext hixj
    rw [this, hj]
  show (match binarySearchBy (fun probe => compare probe.2.position e.2.position)
      c.hints (0, default) with
    | Except.ok ix =>
      if (c.hints.getD ix (0, default)).2 = e.2 then
        some ((c.hints.getD ix (0, default)).1, (c.hints.getD ix (0, default)).2.kind)
      else Option.none
    | Except.error _ => Option.none) = some (e.1, e.2.kind)
  rw [show binarySearchBy (fun probe => compare probe.2.position e.2.position)
      c.hints (0, default) = Except.ok ix from hix]
  show (if (c.hints.getD ix (0, default)).2 = e.2 then
      some ((c.hints.getD ix (0, default)).1, (c.hints.getD ix (0, default)).2.kind)
    else Option.none) = some (e.1, e.2.kind)
  rw [hgete]
  simp

/-- Refetching exactly the stored hints of a strictly sorted, in-span
cache entry persists every stored identity and classifies nothing as an
addition. -/
theorem persistAndAdd_refetch (q : ExcerptQuery) (c : CachedExcerptHints)
    (hsort : List.Pairwise (fun a b => a.2.position < b.2.position) c.hints)
    (hspan : ∀ p ∈ c.hints, q.containsPosition p.2.position = true) :
    ∀ l : List (Nat × InlayHint), (∀ p ∈ l, p ∈ c.hints) →
      hintsToPersistAndAdd q (some c) (l.map (fun p => p.2)) =
        (l.map (fun p => (p.1, p.2.kind)), []) := by
  intro l
  induction l with
  | nil => intro _; rfl
  | cons p rest ih =>
    intro hmem
    have hp := hmem p (List.mem_cons_self _ _)
    have hcm := cachedMatch_of_mem c hsort p hp
    simp only [List.map_cons, hintsToPersistAndAdd, hspan p hp, if_true, hcm,
      ih (fun r hr => hmem r (List.mem_cons_of_mem _ hr))]

/-- The persisted map produced by a full refetch answers contains_key
positively exactly on the stored identities. -/
theorem containsKey_refetch (c : CachedExcerptHints) (id : Nat) :
    containsKey (c.hints.map (fun p => (p.1, p.2.kind))) id = true ↔
      id ∈ c.hints.map (fun p => p.1) := by
  simp only [containsKey, List.any_eq_true, List.mem_map]
  constructor
  · intro ⟨x, ⟨p, hp, hpx⟩, hbe⟩
    have hx : x.1 = id := by simpa using hbe
    rw [← hpx] at hx
    exact ⟨p, hp, hx⟩
  · intro ⟨p, hp, hpid⟩
    exact ⟨(p.1, p.2.kind), ⟨p, hp, rfl⟩, by simp [hpid]⟩

/-- C3: refetching a region whose source returns exactly the cached hint
set (the entry being strictly position-sorted and inside the queried
span, and every visible hint of the region being cache-backed) produces a
None diff: no commit happens, no splice is emitted and the state — hence
every assigned HintId — is untouched.  Moreover the diff result is None
exactly when there is nothing to add and nothing to remove from the cache
or the visible set. -/
theorem claim3_idempotent_refetch :
    (∀ (st : EditorState) (m : MultiBufferModel) (q : ExcerptQuery)
        (visible : List Inlay) (bv : Nat) (c : CachedExcerptHints),
      List.lookup q.excerpt_id st.cache.hints = some c →
      List.Pairwise (fun a b => a.2.position < b.2.position) c.hints →
      (∀ p ∈ c.hints, q.containsPosition p.2.position = true) →
      (∀ inlay ∈ visible, inlay.position.excerpt_id = q.excerpt_id →
        q.containsPosition inlay.position.text_anchor = true →
        inlay.id ∈ c.hints.map (fun p => p.1)) →
      applyFetchResult st m q visible bv (c.hints.map (fun p => p.2)) =
        (st, Option.none)) ∧
    (∀ (q : ExcerptQuery) (fetched : List InlayHint) (cached : Option CachedExcerptHints)
        (visible : List Inlay),
      newExcerptHintsUpdateResult q fetched cached visible = Option.none ↔
        ((hintsToPersistAndAdd q cached fetched).2 = [] ∧
         excerptRemoveFromVisible q (hintsToPersistAndAdd q cached fetched).1 visible = [] ∧
         excerptRemoveFromCache q (hintsToPersistAndAdd q cached fetched).1 cached = ∅)) := by
  constructor
  · intro st m q visible bv c hlook hsort hspan hvis
    have hpa : hintsToPersistAndAdd q (some c) (c.hints.map (fun p => p.2)) =
        (c.hints.map (fun p => (p.1, p.2.kind)), []) :=
      persistAndAdd_refetch q c hsort hspan c.hints (fun p hp => hp)
    have hrfv : excerptRemoveFromVisible q (c.hints.map (fun p => (p.1, p.2.kind)))
        visible = [] := by
      unfold excerptRemoveFromVisible
      by_cases hinv : invalidateCache q.invalidate = true
      · rw [if_pos hinv]
        rw [List.filter_eq_nil_iff]
        intro id hid
        obtain ⟨inlay, hin, rfl⟩ := List.mem_map.mp hid
        obtain ⟨hin1, hin2⟩ := List.mem_filter.mp hin
        obtain ⟨hin0, hin3⟩ := List.mem_filter.mp hin1
        have hmem := hvis inlay hin0 (by simpa using hin3) hin2
        simp [(containsKey_refetch c inlay.id).mpr hmem]
      · rw [if_neg hinv]
    have hrfc : excerptRemoveFromCache q (c.hints.map (fun p => (p.1, p.2.kind)))
        (some c) = ∅ := by
      unfold excerptRemoveFromCache
      by_cases hinv : invalidateCache q.invalidate = true
      · rw [if_pos hinv]
        have hnil : (c.hints.filter
            (fun p => !containsKey (c.hints.map (fun p => (p.1, p.2.kind))) p.1)) = [] := by
          rw [List.filter_eq_nil_iff]
          intro p hp
          simp [(containsKey_refetch c p.1).mpr (List.mem_map.mpr ⟨p, hp, rfl⟩)]
        show ((c.hints.filter
            (fun p => !containsKey (c.hints.map (fun p => (p.1, p.2.kind))) p.1)).map
          (fun p => p.1)).toFinset = ∅
        rw [hnil]
        rfl
      · rw [if_neg hinv]
    have hdiff : newExcerptHintsUpdateResult q (c.hints.map (fun p => p.2)) (some c)
        visible = Option.none := by
      unfold newExcerptHintsUpdateResult
      rw [hpa]
      simp only at hrfv hrfc ⊢
      rw [hrfv, hrfc]
      simp
    unfold applyFetchResult
    rw [hlook, hdiff]
  · intro q fetched cached visible
    unfold newExcerptHintsUpdateResult
    by_cases hc : ((excerptRemoveFromVisible q (hintsToPersistAndAdd q cached fetched).1
          visible).isEmpty &&
        decide (excerptRemoveFromCache q (hintsToPersistAndAdd q cached fetched).1 cached = ∅) &&
        (hintsToPersistAndAdd q cached fetched).2.isEmpty) = true
    · rw [if_pos hc]
      simp only [Bool.and_eq_true, List.isEmpty_iff, decide_eq_true_eq] at hc
      exact ⟨fun _ => ⟨hc.2, hc.1.1, hc.1.2⟩, fun _ => rfl⟩
    · rw [if_neg hc]
      simp only [Bool.and_eq_true, List.isEmpty_iff, decide_eq_true_eq] at hc
      constructor
      · intro h
        exact absurd h (by simp)
      · intro ⟨h1, h2, h3⟩
        exact absurd ⟨⟨h2, h3⟩, h1⟩ hc

theorem claim3_witness :
    applyFetchResult
        ⟨⟨[(7, ⟨3, 0, [(1, ⟨5, some InlayHintKind.type, "same"⟩),
                       (2, ⟨10, some InlayHintKind.parameter, "p"⟩)]⟩)],
           {some InlayHintKind.type, some InlayHintKind.parameter}, 3, []⟩, 3⟩
        ⟨fun _ => some 9, [9]⟩ ⟨9, 7, 0, 100, 4, InvalidationStrategy.onConflict⟩
        [⟨1, ⟨7, 5, some 9⟩, "same"⟩, ⟨2, ⟨7, 10, some 9⟩, "p"⟩] 0
        ([(1, (⟨5, some InlayHintKind.type, "same"⟩ : InlayHint)),
          (2, ⟨10, some InlayHintKind.parameter, "p"⟩)].map (fun p => p.2)) =
      (⟨⟨[(7, ⟨3, 0, [(1, ⟨5, some InlayHintKind.type, "same"⟩),
                      (2, ⟨10, some InlayHintKind.parameter, "p"⟩)]⟩)],
          {some InlayHintKind.type, some InlayHintKind.parameter}, 3, []⟩, 3⟩,
       Option.none) :=
  claim3_idempotent_refetch.1
    ⟨⟨[(7, ⟨3, 0, [(1, ⟨5, some InlayHintKind.type, "same"⟩),
                   (2, ⟨10, some InlayHintKind.parameter, "p"⟩)]⟩)],
       {some InlayHintKind.type, some InlayHintKind.parameter}, 3, []⟩, 3⟩
    ⟨fun _ => some 9, [9]⟩ ⟨9, 7, 0, 100, 4, InvalidationStrategy.onConflict⟩
    [⟨1, ⟨7, 5, some 9⟩, "same"⟩, ⟨2, ⟨7, 10, some 9⟩, "p"⟩] 0
    ⟨3, 0, [(1, ⟨5, some InlayHintKind.type, "same"⟩),
            (2, ⟨10, some InlayHintKind.parameter, "p"⟩)]⟩
    (by decide) (by decide) (by decide) (by decide)

/-!  ### The settings resync walk: characterization lemmas  -/

/-- The shown pair a cached entry contributes to the visible set. -/
def toShownPair (m : MultiBufferModel) (e : Nat) (p : Nat × InlayHint) : Anchor × Nat :=
  (anchorInExcerpt m e p.2.position, p.1)

/-- The splice insertion triple a cached entry contributes. -/
def toInsertTriple (m : MultiBufferModel) (e : Nat) (p : Nat × InlayHint) :
    Anchor × Nat × InlayHint :=
  (anchorInExcerpt m e p.2.position, p.1, p.2)

/-- The displayed inlay a cached entry contributes. -/
def toInlay (m : MultiBufferModel) (e : Nat) (p : Nat × InlayHint) : Inlay :=
  ⟨p.1, anchorInExcerpt m e p.2.position, p.2.label⟩

theorem leftoverInsertions_eq_filter (old_kinds new_kinds : Finset (Option InlayHintKind))
    (m : MultiBufferModel) (e : Nat) :
    ∀ l : List (Nat × InlayHint),
      leftoverInsertions old_kinds new_kinds m e l =
        (l.filter (fun p => p.2.kind ∉ old_kinds ∧ p.2.kind ∈ new_kinds)).map
          (toInsertTriple m e) := by
  intro l
  induction l with
  | nil => rfl
  | cons p rest ih =>
    by_cases hp : p.2.kind ∉ old_kinds ∧ p.2.kind ∈ new_kinds
    · simp [leftoverInsertions, List.filterMap_cons, List.filter_cons, hp, toInsertTriple] at ih ⊢
      exact ih
    · simp [leftoverInsertions, List.filterMap_cons, List.filter_cons, hp, toInsertTriple] at ih ⊢
      exact ih

/-- Matching head step of the retain walk: the cursor head carries the
shown hint's id, so it is consumed, and the shown hint is retained for
removal exactly when its kind is no longer allowed. -/
theorem walkShown_match (old_kinds new_kinds : Finset (Option InlayHintKind))
    (m : MultiBufferModel) (e : Nat) (cid : Nat) (h : InlayHint)
    (rest : List (Nat × InlayHint)) (s : Anchor × Nat) (t : List (Anchor × Nat))
    (b : Nat) (hb : s.1.buffer_id = some b) (hbm : b ∈ m.buffers)
    (hid : cid = s.2) :
    walkShown old_kinds new_kinds m e ((cid, h) :: rest) (s :: t) =
      ((if h.kind ∉ new_kinds then [s] else []) ++
        (walkShown old_kinds new_kinds m e rest t).1,
       (walkShown old_kinds new_kinds m e rest t).2.1,
       (walkShown old_kinds new_kinds m e rest t).2.2) := by
  rw [walkShown]
  simp only [hb, hbm, decide_true_eq_true]
  rw [processShownHint, if_pos hid]
  by_cases hk : h.kind ∉ new_kinds
  · simp [hk]
  · simp [hk]

/-- Skipped head step of the retain walk: the cursor head has a different
id and a position not past the shown hint, so it is consumed, possibly
contributing a newly allowed insertion, and the decision recurses. -/
theorem walkShown_skip (old_kinds new_kinds : Finset (Option InlayHintKind))
    (m : MultiBufferModel) (e : Nat) (cid : Nat) (h : InlayHint)
    (rest : List (Nat × InlayHint)) (s : Anchor × Nat) (t : List (Anchor × Nat))
    (b : Nat) (hb : s.1.buffer_id = some b) (hbm : b ∈ m.buffers)
    (hid : cid ≠ s.2) (hpos : h.position ≤ s.1.text_anchor) :
    walkShown old_kinds new_kinds m e ((cid, h) :: rest) (s :: t) =
      ((walkShown old_kinds new_kinds m e rest (s :: t)).1,
       (if h.kind ∉ old_kinds ∧ h.kind ∈ new_kinds then
          [toInsertTriple m e (cid, h)]
        else []) ++ (walkShown old_kinds new_kinds m e rest (s :: t)).2.1,
       (walkShown old_kinds new_kinds m e rest (s :: t)).2.2) := by
  conv =>
    lhs
    rw [walkShown]
  conv =>
    rhs
    rw [walkShown]
  simp only [hb, hbm, decide_true_eq_true, if_true]
  rw [processShownHint, if_neg hid, if_pos hpos]
  by_cases hk : h.kind ∉ old_kinds ∧ h.kind ∈ new_kinds
  · simp [hk, toInsertTriple]
  · simp [hk]

/-- Characterization of one excerpt's retain walk on a consistent state:
when the shown hints are exactly the old-kind projection of a position
sorted, id-distinct, buffer-resolvable cache entry, the walk retains for
removal exactly the entries whose kind stopped being allowed, and the
walk's insertions together with the leftover loop's are exactly the
entries whose kind just became allowed. -/
theorem walkShown_proj (old_kinds new_kinds : Finset (Option InlayHintKind))
    (m : MultiBufferModel) (e b : Nat) (hb : m.excerpt_buffer e = some b)
    (hbm : b ∈ m.buffers) :
    ∀ ch : List (Nat × InlayHint),
      List.Pairwise hintPosLe ch →
      (ch.map (fun p => p.1)).Nodup →
      (walkShown old_kinds new_kinds m e ch
          ((ch.filter (fun p => p.2.kind ∈ old_kinds)).map (toShownPair m e))).1 =
        ((ch.filter (fun p => p.2.kind ∈ old_kinds ∧ p.2.kind ∉ new_kinds)).map
          (toShownPair m e)) ∧
      ((walkShown old_kinds new_kinds m e ch
          ((ch.filter (fun p => p.2.kind ∈ old_kinds)).map (toShownPair m e))).2.1 ++
        leftoverInsertions old_kinds new_kinds m e
          (walkShown old_kinds new_kinds m e ch
            ((ch.filter (fun p => p.2.kind ∈ old_kinds)).map (toShownPair m e))).2.2 =
        ((ch.filter (fun p => p.2.kind ∉ old_kinds ∧ p.2.kind ∈ new_kinds)).map
          (toInsertTriple m e))) := by
  intro ch
  induction ch with
  | nil =>
    intro _ _
    constructor
    · rfl
    · rfl
  | cons hd rest ih =>
    intro hsort hnod
    obtain ⟨cid, h⟩ := hd
    have hrel : ∀ p ∈ rest, h.position ≤ p.2.position := by
      intro p hp
      exact (List.pairwise_cons.mp hsort).1 p hp
    have hsort2 := (List.pairwise_cons.mp hsort).2
    have hnodc : (cid :: rest.map (fun p => p.1)).Nodup := by
      simpa only [List.map_cons] using hnod
    have hcidnot : cid ∉ rest.map (fun p => p.1) := (List.nodup_cons.mp hnodc).1
    have hnod2 : (rest.map (fun p => p.1)).Nodup := (List.nodup_cons.mp hnodc).2
    have ihr := ih hsort2 hnod2
    by_cases hk : h.kind ∈ old_kinds
    · have hfil : ((cid, h) :: rest).filter (fun p => p.2.kind ∈ old_kinds) =
          (cid, h) :: rest.filter (fun p => p.2.kind ∈ old_kinds) := by
        simp [List.filter_cons, hk]
      rw [hfil, List.map_cons]
      rw [walkShown_match old_kinds new_kinds m e cid h rest _ _ b
        (by simp [toShownPair, anchorInExcerpt, hb]) hbm (by simp [toShownPair])]
      constructor
      · by_cases hk2 : h.kind ∉ new_kinds
        · simp only [if_pos hk2, ihr.1, List.filter_cons]
          simp [hk, hk2, toShownPair]
        · simp only [if_neg hk2, ihr.1, List.filter_cons]
          simp only [not_not] at hk2
          simp [hk, hk2]
      · simp only
        rw [ihr.2]
        simp [List.filter_cons, hk]
    · have hfil : ((cid, h) :: rest).filter (fun p => p.2.kind ∈ old_kinds) =
          rest.filter (fun p => p.2.kind ∈ old_kinds) := by
        simp [List.filter_cons, hk]
      rw [hfil]
      cases hrest : (rest.filter (fun p => p.2.kind ∈ old_kinds)).map (toShownPair m e) with
      | nil =>
        have hallnot : ∀ p ∈ rest, ¬ p.2.kind ∈ old_kinds := by
          have hfe : rest.filter (fun p => p.2.kind ∈ old_kinds) = [] :=
            List.map_eq_nil_iff.mp hrest
          intro p hp
          have := List.filter_eq_nil_iff.mp hfe p hp
          simpa using this
        constructor
        · show ([] : List (Anchor × Nat)) =
            (((cid, h) :: rest).filter
              (fun p => p.2.kind ∈ old_kinds ∧ p.2.kind ∉ new_kinds)).map (toShownPair m e)
          have : ((cid, h) :: rest).filter
              (fun p => p.2.kind ∈ old_kinds ∧ p.2.kind ∉ new_kinds) = [] := by
            rw [List.filter_eq_nil_iff]
            intro p hp
            rcases List.mem_cons.mp hp with rfl | hp2
            · simp [hk]
            · simp [hallnot p hp2]
          rw [this]
          rfl
        · show ([] : List (Anchor × Nat × InlayHint)) ++
            leftoverInsertions old_kinds new_kinds m e ((cid, h) :: rest) = _
          rw [List.nil_append, leftoverInsertions_eq_filter]
      | cons s2 t2 =>
        have hs2mem : s2 ∈ (rest.filter (fun p => p.2.kind ∈ old_kinds)).map
            (toShownPair m e) := by
          rw [hrest]
          exact List.mem_cons_self _ _
        obtain ⟨p2, hp2f, hp2e⟩ := List.mem_map.mp hs2mem
        have hp2rest : p2 ∈ rest := List.mem_of_mem_filter hp2f
        have hskip := walkShown_skip old_kinds new_kinds m e cid h rest s2 t2 b
          (by rw [← hp2e]; simp [toShownPair, anchorInExcerpt, hb]) hbm
          (by
            rw [← hp2e]
            show cid ≠ p2.1
            intro hcontra
            exact hcidnot (hcontra ▸ List.mem_map.mpr ⟨p2, hp2rest, rfl⟩))
          (by rw [← hp2e]; exact hrel p2 hp2rest)
        rw [hskip, ← hrest]
        constructor
        · rw [ihr.1]
          simp [List.filter_cons, hk]
        · rw [List.append_assoc, ihr.2]
          by_cases hp : h.kind ∉ old_kinds ∧ h.kind ∈ new_kinds
          · simp [List.filter_cons, hp, toInsertTriple]
          · simp [List.filter_cons, hp]

/-- The grouped form of a projected visible set: one group per cached
excerpt with a non-empty projection, in cache order. -/
def projShownGroups (m : MultiBufferModel) (K : Finset (Option InlayHintKind))
    (hs : List (Nat × CachedExcerptHints)) : List (Nat × List (Anchor × Nat)) :=
  (hs.map (fun p =>
    (p.1, (p.2.hints.filter (fun r => r.2.kind ∈ K)).map (toShownPair m p.1)))).filter
    (fun gp => !gp.2.isEmpty)

theorem groupPush_append {g : List (Nat × List (Anchor × Nat))} {k : Nat}
    (v : Anchor × Nat) (hk : k ∉ g.map (fun gp => gp.1)) :
    groupPush g k v = g ++ [(k, [v])] := by
  induction g with
  | nil => rfl
  | cons gp rest ih =>
    obtain ⟨k0, vs⟩ := gp
    have hne : k0 ≠ k := by
      intro hcontra
      exact hk (by simp [hcontra])
    rw [groupPush, if_neg hne]
    rw [ih (by intro hmem; exact hk (by simp [hmem]))]
    rfl

theorem groupPush_extend {g : List (Nat × List (Anchor × Nat))} {k : Nat}
    (vs : List (Anchor × Nat)) (v : Anchor × Nat) (hk : k ∉ g.map (fun gp => gp.1)) :
    groupPush (g ++ [(k, vs)]) k v = g ++ [(k, vs ++ [v])] := by
  induction g with
  | nil => simp [groupPush]
  | cons gp rest ih =>
    obtain ⟨k0, vs0⟩ := gp
    have hne : k0 ≠ k := by
      intro hcontra
      exact hk (by simp [hcontra])
    rw [List.cons_append, groupPush, if_neg hne]
    rw [ih (by intro hmem; exact hk (by simp [hmem]))]
    rfl

/-- Folding one same-key block of inlays into the grouped map extends the
trailing group of that key. -/
theorem foldl_groupPush_block (k : Nat) :
    ∀ (items : List Inlay) (g : List (Nat × List (Anchor × Nat)))
      (acc : List (Anchor × Nat)),
      (∀ i ∈ items, i.position.excerpt_id = k) →
      k ∉ g.map (fun gp => gp.1) →
      items.foldl (fun g2 inlay =>
          groupPush g2 inlay.position.excerpt_id (inlay.position, inlay.id))
        (g ++ [(k, acc)]) =
        g ++ [(k, acc ++ items.map (fun i => (i.position, i.id)))] := by
  intro items
  induction items with
  | nil => intro g acc _ _; simp
  | cons i rest ih =>
    intro g acc hkeys hk
    have hki : i.position.excerpt_id = k := hkeys i (List.mem_cons_self _ _)
    rw [List.foldl_cons, hki, groupPush_extend acc (i.position, i.id) hk]
    rw [ih g (acc ++ [(i.position, i.id)])
      (fun j hj => hkeys j (List.mem_cons_of_mem _ hj)) hk]
    simp

/-- groupByExcerpt of a projection: the fold yields exactly the per-excerpt
groups with non-empty projections, in cache order. -/
theorem groupByExcerpt_proj (m : MultiBufferModel) (K : Finset (Option InlayHintKind)) :
    ∀ (hs : List (Nat × CachedExcerptHints)) (g : List (Nat × List (Anchor × Nat))),
      (hs.map (fun p => p.1)).Nodup →
      (∀ k ∈ hs.map (fun p => p.1), k ∉ g.map (fun gp => gp.1)) →
      (projectVisible m K hs).foldl (fun g2 inlay =>
          groupPush g2 inlay.position.excerpt_id (inlay.position, inlay.id)) g =
        g ++ projShownGroups m K hs := by
  intro hs
  induction hs with
  | nil => intro g _ _; simp [projectVisible, projShownGroups]
  | cons p rest ih =>
    intro g hnod hout
    have hnodc : (p.1 :: rest.map (fun r => r.1)).Nodup := by
      simpa only [List.map_cons] using hnod
    have hp1rest : p.1 ∉ rest.map (fun r => r.1) := (List.nodup_cons.mp hnodc).1
    have hnod2 : (rest.map (fun r => r.1)).Nodup := (List.nodup_cons.mp hnodc).2
    have hblock : projectVisible m K (p :: rest) =
        ((p.2.hints.filter (fun r => r.2.kind ∈ K)).map (toInlay m p.1)) ++
          projectVisible m K rest := by
      simp only [projectVisible, List.map_cons, List.flatten_cons]
      rfl
    rw [hblock, List.foldl_append]
    have hkeysblock : ∀ i ∈ (p.2.hints.filter (fun r => r.2.kind ∈ K)).map (toInlay m p.1),
        i.position.excerpt_id = p.1 := by
      intro i hi
      obtain ⟨r, _, rfl⟩ := List.mem_map.mp hi
      rfl
    by_cases hfc : (p.2.hints.filter (fun r => r.2.kind ∈ K)) = []
    · rw [hfc]
      simp only [List.map_nil, List.foldl_nil]
      rw [ih g hnod2 (fun k hk => hout k (by simp [hk]))]
      have hgroups : projShownGroups m K (p :: rest) = projShownGroups m K rest := by
        simp only [projShownGroups, List.map_cons, List.filter_cons]
        rw [hfc]
        simp
      rw [hgroups]
    · obtain ⟨r0, rrest, hfc2⟩ := List.exists_cons_of_ne_nil hfc
      have hfirst : ((p.2.hints.filter (fun r => r.2.kind ∈ K)).map (toInlay m p.1)).foldl
          (fun g2 inlay => groupPush g2 inlay.position.excerpt_id (inlay.position, inlay.id)) g =
          g ++ [(p.1, (p.2.hints.filter (fun r => r.2.kind ∈ K)).map (toShownPair m p.1))] := by
        rw [hfc2, List.map_cons, List.foldl_cons]
        have hout1 : p.1 ∉ g.map (fun gp => gp.1) := hout p.1 (by simp)
        rw [show (toInlay m p.1 r0).position.excerpt_id = p.1 from rfl]
        rw [groupPush_append ((toInlay m p.1 r0).position, (toInlay m p.1 r0).id) hout1]
        rw [foldl_groupPush_block p.1 (rrest.map (toInlay m p.1)) g
          [((toInlay m p.1 r0).position, (toInlay m p.1 r0).id)]
          (fun i hi => by
            obtain ⟨r, _, rfl⟩ := List.mem_map.mp hi
            rfl) hout1]
        simp only [List.map_cons, List.map_map]
        rfl
      rw [hfirst]
      rw [ih (g ++ [(p.1, (p.2.hints.filter (fun r => r.2.kind ∈ K)).map (toShownPair m p.1))])
        hnod2
        (fun k hk => by
          simp only [List.map_append, List.mem_append]
          intro hcontra
          rcases hcontra with hcontra | hcontra
          · exact hout k (by simp [hk]) hcontra
          · simp only [List.map_cons, List.map_nil, List.mem_cons] at hcontra
            rcases hcontra with hcontra | hcontra
            · exact hp1rest (hcontra ▸ hk)
            · cases hcontra)]
      have hgroups : projShownGroups m K (p :: rest) =
          (p.1, (p.2.hints.filter (fun r => r.2.kind ∈ K)).map (toShownPair m p.1)) ::
            projShownGroups m K rest := by
        simp only [projShownGroups, List.map_cons, List.filter_cons]
        rw [hfc2]
        simp
      rw [hgroups]
      simp

theorem lookup_eq_none_of_key_not_mem {β : Type} {g : List (Nat × β)} {k : Nat}
    (hk : k ∉ g.map (fun gp => gp.1)) : List.lookup k g = Option.none := by
  induction g with
  | nil => rfl
  | cons gp rest ih =>
    obtain ⟨k0, v0⟩ := gp
    have hne : k ≠ k0 := by
      intro hcontra
      exact hk (by simp [hcontra])
    simp only [List.lookup]
    rw [show (k == k0) = false by simp [hne]]
    exact ih (by intro hmem; exact hk (by simp [hmem]))

theorem projShownGroups_keys_sub (m : MultiBufferModel) (K : Finset (Option InlayHintKind))
    (hs : List (Nat × CachedExcerptHints)) :
    ∀ gp ∈ projShownGroups m K hs, gp.1 ∈ hs.map (fun p => p.1) := by
  intro gp hgp
  obtain ⟨hgp1, _⟩ := List.mem_filter.mp hgp
  obtain ⟨p, hp, rfl⟩ := List.mem_map.mp hgp1
  exact List.mem_map.mpr ⟨p, hp, rfl⟩

theorem projShownGroups_keys_nodup (m : MultiBufferModel) (K : Finset (Option InlayHintKind))
    (hs : List (Nat × CachedExcerptHints)) (hnod : (hs.map (fun p => p.1)).Nodup) :
    ((projShownGroups m K hs).map (fun gp => gp.1)).Nodup := by
  have hsub : List.Sublist ((projShownGroups m K hs).map (fun gp => gp.1))
      ((hs.map (fun p =>
        (p.1, (p.2.hints.filter (fun r => r.2.kind ∈ K)).map (toShownPair m p.1)))).map
        (fun gp => gp.1)) :=
    (List.filter_sublist _).map _
  rw [List.map_map] at hsub
  exact List.Nodup.sublist hsub (by
    have : ((fun gp => gp.1) ∘ (fun p : Nat × CachedExcerptHints =>
        ((p.1, (p.2.hints.filter (fun r => r.2.kind ∈ K)).map (toShownPair m p.1)) :
          Nat × List (Anchor × Nat)))) = fun p => p.1 := rfl
    rw [this]
    exact hnod)

theorem lookup_projShownGroups (m : MultiBufferModel) (K : Finset (Option InlayHintKind)) :
    ∀ hs : List (Nat × CachedExcerptHints), (hs.map (fun p => p.1)).Nodup →
      ∀ p ∈ hs, lookupGroup (projShownGroups m K hs) p.1 =
        (p.2.hints.filter (fun r => r.2.kind ∈ K)).map (toShownPair m p.1) := by
  intro hs
  induction hs with
  | nil => intro _ p hp; cases hp
  | cons q rest ih =>
    intro hnod p hp
    have hnodc : (q.1 :: rest.map (fun r => r.1)).Nodup := by
      simpa only [List.map_cons] using hnod
    have hq1rest : q.1 ∉ rest.map (fun r => r.1) := (List.nodup_cons.mp hnodc).1
    have hnod2 : (rest.map (fun r => r.1)).Nodup := (List.nodup_cons.mp hnodc).2
    rcases List.mem_cons.mp hp with rfl | hp2
    · by_cases hfc : (p.2.hints.filter (fun r => r.2.kind ∈ K)) = []
      · have hgroups : projShownGroups m K (p :: rest) = projShownGroups m K rest := by
          simp only [projShownGroups, List.map_cons, List.filter_cons, hfc]
          simp
        rw [hgroups, hfc]
        have hnotin : p.1 ∉ (projShownGroups m K rest).map (fun gp => gp.1) := by
          intro hcontra
          obtain ⟨gp, hgp, hgpe⟩ := List.mem_map.mp hcontra
          exact hq1rest (hgpe ▸ projShownGroups_keys_sub m K rest gp hgp)
        unfold lookupGroup
        rw [lookup_eq_none_of_key_not_mem hnotin]
        rfl
      · have hgroups : projShownGroups m K (p :: rest) =
            (p.1, (p.2.hints.filter (fun r => r.2.kind ∈ K)).map (toShownPair m p.1)) ::
              projShownGroups m K rest := by
          simp only [projShownGroups, List.map_cons, List.filter_cons]
          obtain ⟨r0, rrest, hfc2⟩ := List.exists_cons_of_ne_nil hfc
          rw [hfc2]
          simp
        rw [hgroups]
        unfold lookupGroup
        simp [List.lookup]
    · have hne : p.1 ≠ q.1 := by
        intro hcontra
        exact hq1rest (hcontra ▸ List.mem_map.mpr ⟨p, hp2, rfl⟩)
      have htail := ih hnod2 p hp2
      by_cases hfc : (q.2.hints.filter (fun r => r.2.kind ∈ K)) = []
      · have hgroups : projShownGroups m K (q :: rest) = projShownGroups m K rest := by
          simp only [projShownGroups, List.map_cons, List.filter_cons, hfc]
          simp
        rw [hgroups]
        exact htail
      · have hgroups : projShownGroups m K (q :: rest) =
            (q.1, (q.2.hints.filter (fun r => r.2.kind ∈ K)).map (toShownPair m q.1)) ::
              projShownGroups m K rest := by
          simp only [projShownGroups, List.map_cons, List.filter_cons]
          obtain ⟨r0, rrest, hfc2⟩ := List.exists_cons_of_ne_nil hfc
          rw [hfc2]
          simp
        rw [hgroups]
        unfold lookupGroup
        simp only [List.lookup]
        rw [show (p.1 == q.1) = false by simp [hne]]
        exact htail

theorem lookup_setGroup_ne (g : List (Nat × List (Anchor × Nat))) (e k : Nat)
    (v : List (Anchor × Nat)) (hne : k ≠ e) :
    List.lookup k (setGroup g e v) = List.lookup k g := by
  induction g with
  | nil =>
    simp only [setGroup, List.lookup]
    rw [show (k == e) = false by simp [hne]]
  | cons gp rest ih =>
    obtain ⟨k0, vs⟩ := gp
    by_cases h0 : k0 = e
    · subst h0
      rw [setGroup, if_pos rfl]
      simp only [List.lookup]
      rw [show (k == k0) = false by simp [hne]]
    · rw [setGroup, if_neg h0]
      simp only [List.lookup]
      cases k == k0 with
      | true => rfl
      | false => exact ih

theorem setGroup_keys (g : List (Nat × List (Anchor × Nat))) (e : Nat)
    (v : List (Anchor × Nat)) :
    (setGroup g e v).map (fun gp => gp.1) =
      if e ∈ g.map (fun gp => gp.1) then g.map (fun gp => gp.1)
      else g.map (fun gp => gp.1) ++ [e] := by
  induction g with
  | nil => simp [setGroup]
  | cons gp rest ih =>
    obtain ⟨k0, vs⟩ := gp
    by_cases h0 : k0 = e
    · subst h0
      rw [setGroup, if_pos rfl]
      simp
    · rw [setGroup, if_neg h0]
      simp only [List.map_cons, ih]
      by_cases hmem : e ∈ rest.map (fun gp => gp.1)
      · rw [if_pos hmem, if_pos (by simp [hmem])]
      · rw [if_neg hmem, if_neg (by
          simp only [List.mem_cons]
          intro hcontra
          rcases hcontra with hcontra | hcontra
          · exact h0 hcontra.symm
          · exact hmem hcontra)]
        rfl

theorem setGroup_keys_nodup (g : List (Nat × List (Anchor × Nat))) (e : Nat)
    (v : List (Anchor × Nat)) (hnod : (g.map (fun gp => gp.1)).Nodup) :
    ((setGroup g e v).map (fun gp => gp.1)).Nodup := by
  rw [setGroup_keys]
  by_cases hmem : e ∈ g.map (fun gp => gp.1)
  · rw [if_pos hmem]; exact hnod
  · rw [if_neg hmem]
    simp [List.nodup_append, hnod, hmem]

/-- Replacing one group and then flattening the groups outside a key set
S not containing the replaced key is, up to permutation, the new value
beside the flatten of the untouched other groups. -/
theorem setGroup_filter_flatten_perm :
    ∀ (g : List (Nat × List (Anchor × Nat))) (e : Nat) (v : List (Anchor × Nat))
      (S : List Nat), e ∉ S → (g.map (fun gp => gp.1)).Nodup →
      ((((setGroup g e v).filter (fun gp => gp.1 ∉ S)).map (fun gp => gp.2)).flatten).Perm
        (v ++ (((g.filter (fun gp => gp.1 ∉ S ∧ gp.1 ≠ e)).map
          (fun gp => gp.2)).flatten)) := by
  intro g
  induction g with
  | nil =>
    intro e v S heS _
    simp [setGroup, List.filter_cons, heS]
  | cons gp rest ih =>
    intro e v S heS hnod
    obtain ⟨k0, vs⟩ := gp
    have hnodc : (k0 :: rest.map (fun gp => gp.1)).Nodup := by
      simpa only [List.map_cons] using hnod
    have hk0rest : k0 ∉ rest.map (fun gp => gp.1) := (List.nodup_cons.mp hnodc).1
    have hnod2 : (rest.map (fun gp => gp.1)).Nodup := (List.nodup_cons.mp hnodc).2
    by_cases h0 : k0 = e
    · subst h0
      rw [setGroup, if_pos rfl]
      have hfe : rest.filter (fun gp => gp.1 ∉ S ∧ gp.1 ≠ k0) =
          rest.filter (fun gp => gp.1 ∉ S) := by
        apply List.filter_congr
        intro gp hgp
        have : gp.1 ≠ k0 := by
          intro hcontra
          exact hk0rest (hcontra ▸ List.mem_map.mpr ⟨gp, hgp, rfl⟩)
        simp [this]
      rw [List.filter_cons, List.filter_cons,
        if_pos (show (decide ((k0, v).1 ∉ S)) = true by simp [heS]),
        if_neg (show ¬ ((decide ((k0, vs).1 ∉ S ∧ (k0, vs).1 ≠ k0)) = true) by simp)]
      rw [hfe]
      simp only [List.map_cons, List.flatten_cons]
      exact List.Perm.refl _
    · rw [setGroup, if_neg h0]
      by_cases hkS : k0 ∈ S
      · rw [List.filter_cons, List.filter_cons,
          if_neg (show ¬ ((decide ((k0, vs).1 ∉ S)) = true) by simp [hkS]),
          if_neg (show ¬ ((decide ((k0, vs).1 ∉ S ∧ (k0, vs).1 ≠ e)) = true) by simp [hkS])]
        exact ih e v S heS hnod2
      · rw [List.filter_cons, List.filter_cons,
          if_pos (show (decide ((k0, vs).1 ∉ S)) = true by simp [hkS]),
          if_pos (show (decide ((k0, vs).1 ∉ S ∧ (k0, vs).1 ≠ e)) = true by simp [hkS, h0])]
        simp only [List.map_cons, List.flatten_cons]
        exact (List.Perm.append_left vs (ih e v S heS hnod2)).trans
          (List.perm_append_comm_assoc vs v _)

/-- The per-excerpt loop of the settings resync on a consistent grouped
map: the flatten of the final groups (the removal candidates) is, up to
permutation, the pass-through groups outside the cache beside the no
longer allowed projections, and the collected insertions are exactly the
newly allowed cached entries, in cache order. -/
theorem processExcerpts_spec (old_kinds new_kinds : Finset (Option InlayHintKind))
    (m : MultiBufferModel) :
    ∀ (hs : List (Nat × CachedExcerptHints)) (g : List (Nat × List (Anchor × Nat))),
      (hs.map (fun p => p.1)).Nodup →
      (∀ p ∈ hs, List.Pairwise hintPosLe p.2.hints) →
      (∀ p ∈ hs, (p.2.hints.map (fun r => r.1)).Nodup) →
      (∀ p ∈ hs, ∃ b, m.excerpt_buffer p.1 = some b ∧ b ∈ m.buffers) →
      (∀ p ∈ hs, lookupGroup g p.1 =
        (p.2.hints.filter (fun r => r.2.kind ∈ old_kinds)).map (toShownPair m p.1)) →
      (g.map (fun gp => gp.1)).Nodup →
      ((((processExcerpts old_kinds new_kinds m hs g).1.map (fun gp => gp.2)).flatten).Perm
        ((((g.filter (fun gp => gp.1 ∉ hs.map (fun p => p.1))).map
            (fun gp => gp.2)).flatten) ++
          (hs.map (fun p =>
            (p.2.hints.filter (fun r => r.2.kind ∈ old_kinds ∧ r.2.kind ∉ new_kinds)).map
              (toShownPair m p.1))).flatten)) ∧
      (processExcerpts old_kinds new_kinds m hs g).2 =
        (hs.map (fun p =>
          (p.2.hints.filter (fun r => r.2.kind ∉ old_kinds ∧ r.2.kind ∈ new_kinds)).map
            (toInsertTriple m p.1))).flatten := by
  intro hs
  induction hs with
  | nil =>
    intro g _ _ _ _ _ _
    constructor
    · show ((g.map (fun gp => gp.2)).flatten).Perm _
      have : g.filter (fun gp =>
          gp.1 ∉ ([] : List (Nat × CachedExcerptHints)).map (fun p => p.1)) = g := by
        rw [List.filter_eq_self]
        intro gp _
        simp
      rw [this]
      simp
    · rfl
  | cons p rest ih =>
    intro g hnod hsorted hids hres hagree hgnod
    have hnodc : (p.1 :: rest.map (fun r => r.1)).Nodup := by
      simpa only [List.map_cons] using hnod
    have hp1rest : p.1 ∉ rest.map (fun r => r.1) := (List.nodup_cons.mp hnodc).1
    have hnod2 : (rest.map (fun r => r.1)).Nodup := (List.nodup_cons.mp hnodc).2
    obtain ⟨b, hb, hbm⟩ := hres p (List.mem_cons_self _ _)
    have hshown := hagree p (List.mem_cons_self _ _)
    have hwp := walkShown_proj old_kinds new_kinds m p.1 b hb hbm p.2.hints
      (hsorted p (List.mem_cons_self _ _)) (hids p (List.mem_cons_self _ _))
    have hunfold : processExcerpts old_kinds new_kinds m (p :: rest) g =
        ((processExcerpts old_kinds new_kinds m rest
            (setGroup g p.1 (walkShown old_kinds new_kinds m p.1 p.2.hints
              (lookupGroup g p.1)).1)).1,
         (walkShown old_kinds new_kinds m p.1 p.2.hints (lookupGroup g p.1)).2.1 ++
           leftoverInsertions old_kinds new_kinds m p.1
             (walkShown old_kinds new_kinds m p.1 p.2.hints (lookupGroup g p.1)).2.2 ++
           (processExcerpts old_kinds new_kinds m rest
             (setGroup g p.1 (walkShown old_kinds new_kinds m p.1 p.2.hints
               (lookupGroup g p.1)).1)).2) := by
      rw [processExcerpts]
    have hihargs := ih (setGroup g p.1 (walkShown old_kinds new_kinds m p.1 p.2.hints
        (lookupGroup g p.1)).1) hnod2
      (fun q hq => hsorted q (List.mem_cons_of_mem _ hq))
      (fun q hq => hids q (List.mem_cons_of_mem _ hq))
      (fun q hq => hres q (List.mem_cons_of_mem _ hq))
      (fun q hq => by
        have hne : q.1 ≠ p.1 := by
          intro hcontra
          exact hp1rest (hcontra ▸ List.mem_map.mpr ⟨q, hq, rfl⟩)
        unfold lookupGroup
        rw [lookup_setGroup_ne g p.1 q.1 _ hne]
        exact hagree q (List.mem_cons_of_mem _ hq))
      (setGroup_keys_nodup g p.1 _ hgnod)
    constructor
    · rw [hunfold]
      simp only
      refine (hihargs.1).trans ?_
      have hperm1 : ((((setGroup g p.1 (walkShown old_kinds new_kinds m p.1 p.2.hints
            (lookupGroup g p.1)).1).filter
            (fun gp => gp.1 ∉ rest.map (fun r => r.1))).map
            (fun gp => gp.2)).flatten).Perm
          ((walkShown old_kinds new_kinds m p.1 p.2.hints (lookupGroup g p.1)).1 ++
            (((g.filter (fun gp => gp.1 ∉ rest.map (fun r => r.1) ∧ gp.1 ≠ p.1)).map
              (fun gp => gp.2)).flatten)) :=
        setGroup_filter_flatten_perm g p.1 _ (rest.map (fun r => r.1)) hp1rest hgnod
      have hfc : g.filter (fun gp => gp.1 ∉ rest.map (fun r => r.1) ∧ gp.1 ≠ p.1) =
          g.filter (fun gp => gp.1 ∉ (p :: rest).map (fun r => r.1)) := by
        apply List.filter_congr
        intro gp _
        simp only [List.map_cons, List.mem_cons, decide_eq_decide]
        constructor
        · intro ⟨h1, h2⟩ hcontra
          rcases hcontra with hcontra | hcontra
          · exact h2 hcontra
          · exact h1 hcontra
        · intro hcontra
          exact ⟨fun hmem => hcontra (Or.inr hmem), fun heq => hcontra (Or.inl heq)⟩
      rw [hfc] at hperm1
      rw [hshown] at hperm1
      rw [hwp.1] at hperm1
      rw [hshown, hwp.1]
      refine (hperm1.append_right _).trans ?_
      simp only [List.map_cons, List.flatten_cons]
      rw [List.append_assoc]
      exact List.perm_append_comm_assoc _ _ _
    · rw [hunfold]
      simp only
      have hih2 := hihargs.2
      rw [hshown] at hih2
      rw [hshown, hih2]
      simp only [List.map_cons, List.flatten_cons]
      rw [← hwp.2, List.append_assoc]

/-- Characterization of new_allowed_hint_kinds_splice on a consistent
state: for a kind-set change over a cache with distinct keys, sorted
entries, per-excerpt distinct ids and resolvable buffers, whose visible
set is exactly the old-kind projection, the computed removal list is a
permutation of the no longer allowed cached ids, the insertion list is
exactly the newly allowed cached entries in cache order, and the result
is None exactly when both are empty. -/
theorem newAllowedHintKindsSplice_spec (c : InlayHintCache) (m : MultiBufferModel)
    (new_kinds : Finset (Option InlayHintKind))
    (hkeys : (c.hints.map (fun p => p.1)).Nodup)
    (hsorted : ∀ p ∈ c.hints, List.Pairwise hintPosLe p.2.hints)
    (hids : ∀ p ∈ c.hints, (p.2.hints.map (fun r => r.1)).Nodup)
    (hres : ∀ p ∈ c.hints, ∃ b, m.excerpt_buffer p.1 = some b ∧ b ∈ m.buffers)
    (hne : new_kinds ≠ c.allowed_hint_kinds) :
    ∃ rem : List Nat,
      rem.Perm ((c.hints.map (fun p =>
        (p.2.hints.filter (fun r =>
          r.2.kind ∈ c.allowed_hint_kinds ∧ r.2.kind ∉ new_kinds)).map
          (fun r => r.1))).flatten) ∧
      newAllowedHintKindsSplice c m (projectVisible m c.allowed_hint_kinds c.hints)
          new_kinds =
        (if rem.isEmpty && ((c.hints.map (fun p =>
            (p.2.hints.filter (fun r =>
              r.2.kind ∉ c.allowed_hint_kinds ∧ r.2.kind ∈ new_kinds)).map
              (toInsertTriple m p.1))).flatten).isEmpty
         then Option.none
         else some ⟨rem, (c.hints.map (fun p =>
            (p.2.hints.filter (fun r =>
              r.2.kind ∉ c.allowed_hint_kinds ∧ r.2.kind ∈ new_kinds)).map
              (toInsertTriple m p.1))).flatten⟩) := by
  have hGB : groupByExcerpt (projectVisible m c.allowed_hint_kinds c.hints) =
      projShownGroups m c.allowed_hint_kinds c.hints := by
    unfold groupByExcerpt
    rw [groupByExcerpt_proj m c.allowed_hint_kinds c.hints [] hkeys (by simp)]
    rfl
  have hPE := processExcerpts_spec c.allowed_hint_kinds new_kinds m c.hints
    (projShownGroups m c.allowed_hint_kinds c.hints) hkeys hsorted hids hres
    (lookup_projShownGroups m c.allowed_hint_kinds c.hints hkeys)
    (projShownGroups_keys_nodup m c.allowed_hint_kinds c.hints hkeys)
  have hfilnil : (projShownGroups m c.allowed_hint_kinds c.hints).filter
      (fun gp => gp.1 ∉ c.hints.map (fun p => p.1)) = [] := by
    rw [List.filter_eq_nil_iff]
    intro gp hgp
    simp [projShownGroups_keys_sub m c.allowed_hint_kinds c.hints gp hgp]
  rw [hfilnil] at hPE
  simp only [List.map_nil, List.flatten_nil, List.nil_append] at hPE
  have hremperm : ((((processExcerpts c.allowed_hint_kinds new_kinds m c.hints
      (projShownGroups m c.allowed_hint_kinds c.hints)).1.map
        (fun gp => gp.2)).flatten).map (fun sp => sp.2)).Perm
      ((c.hints.map (fun p =>
        (p.2.hints.filter (fun r =>
          r.2.kind ∈ c.allowed_hint_kinds ∧ r.2.kind ∉ new_kinds)).map
          (fun r => r.1))).flatten) := by
    refine (hPE.1.map (fun sp => sp.2)).trans ?_
    rw [List.map_flatten, List.map_map]
    apply List.Perm.of_eq
    congr 1
    apply List.map_congr_left
    intro p _
    simp only [Function.comp]
    rw [List.map_map]
    rfl
  refine ⟨_, hremperm, ?_⟩
  unfold newAllowedHintKindsSplice
  rw [if_neg hne]
  simp only [hGB]
  rw [hPE.2]

/-- Across a cache whose flattened identity list is duplicate-free, equal
identities carry equal hint values. -/
theorem nodup_flatten_ids :
    ∀ hs : List (Nat × CachedExcerptHints),
      (((hs.map (fun p => p.2.hints.map (fun r => r.1))).flatten).Nodup) →
      ∀ p ∈ hs, ∀ r ∈ p.2.hints, ∀ p2 ∈ hs, ∀ r2 ∈ p2.2.hints,
        r.1 = r2.1 → r.2 = r2.2 := by
  intro hs
  induction hs with
  | nil => intro _ p hp; cases hp
  | cons q rest ih =>
    intro hnod p hp r hr p2 hp2 r2 hr2 hid
    rw [List.map_cons, List.flatten_cons, List.nodup_append] at hnod
    obtain ⟨hq, hrest, hdisj⟩ := hnod
    rcases List.mem_cons.mp hp with heq | hp' <;>
      rcases List.mem_cons.mp hp2 with heq2 | hp2'
    · have hr1 : r ∈ q.2.hints := heq ▸ hr
      have hr2b : r2 ∈ q.2.hints := heq2 ▸ hr2
      have := List.inj_on_of_nodup_map hq hr1 hr2b hid
      rw [this]
    · exfalso
      have h1 : r.1 ∈ q.2.hints.map (fun x => x.1) :=
        List.mem_map.mpr ⟨r, heq ▸ hr, rfl⟩
      have h2 : r.1 ∈ (rest.map (fun x => x.2.hints.map (fun y => y.1))).flatten := by
        rw [hid]
        exact List.mem_flatten.mpr ⟨p2.2.hints.map (fun y => y.1),
          List.mem_map.mpr ⟨p2, hp2', rfl⟩, List.mem_map.mpr ⟨r2, hr2, rfl⟩⟩
      exact hdisj h1 h2
    · exfalso
      have h1 : r2.1 ∈ q.2.hints.map (fun x => x.1) :=
        List.mem_map.mpr ⟨r2, heq2 ▸ hr2, rfl⟩
      have h2 : r2.1 ∈ (rest.map (fun x => x.2.hints.map (fun y => y.1))).flatten := by
        rw [← hid]
        exact List.mem_flatten.mpr ⟨p.2.hints.map (fun y => y.1),
          List.mem_map.mpr ⟨p, hp', rfl⟩, List.mem_map.mpr ⟨r, hr, rfl⟩⟩
      exact hdisj h1 h2
    · exact ih hrest p hp' r hr p2 hp2' r2 hr2 hid

/-- Splitting a flatten of pointwise permutations of appended blocks. -/
theorem flatten_map_split {α β : Type} (A B C : α → List β) :
    ∀ hs : List α, (∀ p ∈ hs, (A p).Perm (B p ++ C p)) →
      ((hs.map A).flatten).Perm ((hs.map B).flatten ++ (hs.map C).flatten) := by
  intro hs
  induction hs with
  | nil => intro _; simp
  | cons q rest ih =>
    intro hsplit
    simp only [List.map_cons, List.flatten_cons]
    have h1 : (A q ++ (rest.map A).flatten).Perm
        ((B q ++ C q) ++ ((rest.map B).flatten ++ (rest.map C).flatten)) :=
      List.Perm.append (hsplit q (List.mem_cons_self _ _))
        (ih (fun p hp => hsplit p (List.mem_cons_of_mem _ hp)))
    refine h1.trans ?_
    rw [List.append_assoc, List.append_assoc]
    exact List.Perm.append_left (B q)
      (List.perm_append_comm_assoc (C q) ((rest.map B).flatten) ((rest.map C).flatten))

/-- Toggling showParameterHints off removes exactly the Parameter kind
from the derived set. -/
theorem allowedHintTypes_param_toggle (s : InlayHintSettings)
    (hp : s.show_parameter_hints = true) :
    allowedHintTypes s = insert (some InlayHintKind.parameter)
      (allowedHintTypes { s with show_parameter_hints := false }) ∧
    some InlayHintKind.parameter ∉
      allowedHintTypes { s with show_parameter_hints := false } := by
  obtain ⟨e, t, p, o⟩ := s
  simp only at hp
  subst hp
  cases e <;> cases t <;> cases o <;> exact ⟨by decide, by decide⟩

/-- The ids of the Parameter-kind cached hints, flattened in cache order. -/
def paramRemIds (hs : List (Nat × CachedExcerptHints)) : List Nat :=
  (hs.map (fun p =>
    (p.2.hints.filter (fun r => r.2.kind = some InlayHintKind.parameter)).map
      (fun r => r.1))).flatten

theorem updateSettings_on_kind_change (c : InlayHintCache) (m : MultiBufferModel)
    (s : InlayHintSettings) (visible : List Inlay) (hen : s.enabled = true)
    (hne : allowedHintTypes s ≠ c.allowed_hint_kinds) :
    updateSettings c m s visible =
      (match newAllowedHintKindsSplice c m visible (allowedHintTypes s) with
       | some sp =>
         ({ c with
             version := c.version + 1
             update_tasks := []
             allowed_hint_kinds := allowedHintTypes s }, some sp)
       | Option.none => (c, Option.none)) := by
  unfold updateSettings
  rw [hen]
  simp only [Bool.not_true, Bool.false_eq_true, if_false]
  rw [if_neg hne]

theorem updateSettings_noop (c : InlayHintCache) (m : MultiBufferModel)
    (s : InlayHintSettings) (visible : List Inlay) (hen : s.enabled = true)
    (heq : allowedHintTypes s = c.allowed_hint_kinds) :
    updateSettings c m s visible = (c, Option.none) := by
  unfold updateSettings
  rw [hen]
  simp only [Bool.not_true, Bool.false_eq_true, if_false]
  rw [if_pos heq]

theorem per_excerpt_ids_nodup :
    ∀ hs : List (Nat × CachedExcerptHints),
      (((hs.map (fun p => p.2.hints.map (fun r => r.1))).flatten).Nodup) →
      ∀ p ∈ hs, (p.2.hints.map (fun r => r.1)).Nodup := by
  intro hs
  induction hs with
  | nil => intro _ p hp; cases hp
  | cons q rest ih =>
    intro hnod p hp
    rw [List.map_cons, List.flatten_cons, List.nodup_append] at hnod
    rcases List.mem_cons.mp hp with heq | hp'
    · exact heq ▸ hnod.1
    · exact ih hnod.2.1 p hp'

theorem mem_insert_param_iff (K2 : Finset (Option InlayHintKind))
    (hparam : some InlayHintKind.parameter ∉ K2) (k : Option InlayHintKind) :
    ((k ∈ insert (some InlayHintKind.parameter) K2 ∧ k ∉ K2) ↔
      k = some InlayHintKind.parameter) ∧
    ((k ∉ K2 ∧ k ∈ insert (some InlayHintKind.parameter) K2) ↔
      k = some InlayHintKind.parameter) := by
  constructor
  · constructor
    · intro ⟨hm, hn⟩
      rcases Finset.mem_insert.mp hm with heq | hmem
      · exact heq
      · exact absurd hmem hn
    · intro heq
      subst heq
      exact ⟨Finset.mem_insert_self _ _, hparam⟩
  · constructor
    · intro ⟨hn, hm⟩
      rcases Finset.mem_insert.mp hm with heq | hmem
      · exact heq
      · exact absurd hmem hn
    · intro heq
      subst heq
      exact ⟨hparam, Finset.mem_insert_self _ _⟩

/-- Filtering the removed Parameter ids out of the full projection gives
exactly the projection under the reduced kind set. -/
theorem projection_filter_param (m : MultiBufferModel)
    (hs : List (Nat × CachedExcerptHints)) (K2 : Finset (Option InlayHintKind))
    (hglob : ((hs.map (fun p => p.2.hints.map (fun r => r.1))).flatten).Nodup)
    (hparam : some InlayHintKind.parameter ∉ K2) (rem : List Nat)
    (hrem : ∀ id, id ∈ rem ↔ id ∈ paramRemIds hs) :
    (projectVisible m (insert (some InlayHintKind.parameter) K2) hs).filter
        (fun i => i.id ∉ rem) = projectVisible m K2 hs := by
  unfold projectVisible
  rw [List.filter_flatten, List.map_map]
  congr 1
  apply List.map_congr_left
  intro p hp
  simp only [Function.comp]
  rw [List.filter_map, List.filter_filter]
  congr 1
  apply List.filter_congr
  intro r hr
  simp only [Function.comp]
  rw [← Bool.decide_and, decide_eq_decide]
  constructor
  · intro ⟨hnot, hmem⟩
    rcases Finset.mem_insert.mp hmem with heq | hmem2
    · exfalso
      apply hnot
      rw [hrem]
      exact List.mem_flatten.mpr ⟨_, List.mem_map.mpr ⟨p, hp, rfl⟩,
        List.mem_map.mpr ⟨r, List.mem_filter.mpr ⟨hr, by simp [heq]⟩, rfl⟩⟩
    · exact hmem2
  · intro hmem
    refine ⟨?_, Finset.mem_insert_of_mem hmem⟩
    intro hcontra
    rw [hrem] at hcontra
    obtain ⟨block, hblock, hidin⟩ := List.mem_flatten.mp hcontra
    obtain ⟨p2, hp2, rfl⟩ := List.mem_map.mp hblock
    obtain ⟨r2, hr2f, hr2e⟩ := List.mem_map.mp hidin
    obtain ⟨hr2mem, hr2kind⟩ := List.mem_filter.mp hr2f
    have hval := nodup_flatten_ids hs hglob p hp r hr p2 hp2 r2 hr2mem hr2e.symm
    have : r.2.kind = some InlayHintKind.parameter := by
      rw [hval]
      simpa using hr2kind
    exact hparam (this ▸ hmem)

/-- The full projection splits, up to permutation, into the reduced
projection beside the Parameter-kind inlays. -/
theorem projection_param_split (m : MultiBufferModel)
    (hs : List (Nat × CachedExcerptHints)) (K2 : Finset (Option InlayHintKind))
    (hparam : some InlayHintKind.parameter ∉ K2) :
    (projectVisible m (insert (some InlayHintKind.parameter) K2) hs).Perm
      (projectVisible m K2 hs ++
        (hs.map (fun p =>
          (p.2.hints.filter (fun r => r.2.kind = some InlayHintKind.parameter)).map
            (toInlay m p.1))).flatten) := by
  unfold projectVisible
  refine flatten_map_split _ _ _ hs ?_
  intro p _
  have hper := List.filter_append_perm (fun r : Nat × InlayHint => decide (r.2.kind ∈ K2))
    (p.2.hints.filter (fun r =>
      r.2.kind ∈ insert (some InlayHintKind.parameter) K2))
  have h1 : ((p.2.hints.filter (fun r =>
      r.2.kind ∈ insert (some InlayHintKind.parameter) K2)).filter
        (fun r => decide (r.2.kind ∈ K2))) =
      p.2.hints.filter (fun r => r.2.kind ∈ K2) := by
    rw [List.filter_filter]
    apply List.filter_congr
    intro r _
    rw [Bool.eq_iff_iff]
    simp only [Bool.and_eq_true, decide_eq_true_eq, Finset.mem_insert]
    exact ⟨fun h => h.1, fun h => ⟨h, Or.inr h⟩⟩
  have h2 : ((p.2.hints.filter (fun r =>
      r.2.kind ∈ insert (some InlayHintKind.parameter) K2)).filter
        (fun r => !decide (r.2.kind ∈ K2))) =
      p.2.hints.filter (fun r => r.2.kind = some InlayHintKind.parameter) := by
    rw [List.filter_filter]
    apply List.filter_congr
    intro r _
    rw [Bool.eq_iff_iff]
    simp only [Bool.and_eq_true, Bool.not_eq_true', decide_eq_false_iff_not,
      decide_eq_true_eq, Finset.mem_insert]
    constructor
    · intro ⟨hn, hmem⟩
      rcases hmem with heq | hmem2
      · exact heq
      · exact absurd hmem2 hn
    · intro heq
      exact ⟨fun hmem => hparam (heq ▸ hmem), Or.inl heq⟩
  rw [h1, h2] at hper
  have := hper.symm.map (toInlay m p.1)
  rw [List.map_append] at this
  exact this

/-- C5: toggling showParameterHints off and back on through applySettings
with no document change — over a consistent state: distinct excerpt keys,
sorted entries, globally distinct HintIds, resolvable buffers, and a
visible set that is exactly the kind projection of the cache — yields two
splices whose composition restores the visible set exactly (same hints,
same HintIds, as a permutation), leaves every cached hint and id
untouched and restores the allowed kind set; both resyncs are computed
purely from the cache and the visible hints, with no fetch involved. -/
theorem claim5_kind_toggle_roundtrip :
    ∀ (c : InlayHintCache) (m : MultiBufferModel) (s : InlayHintSettings)
      (visible : List Inlay),
      s.enabled = true →
      s.show_parameter_hints = true →
      c.allowed_hint_kinds = allowedHintTypes s →
      (c.hints.map (fun p => p.1)).Nodup →
      (∀ p ∈ c.hints, List.Pairwise hintPosLe p.2.hints) →
      (((c.hints.map (fun p => p.2.hints.map (fun r => r.1))).flatten).Nodup) →
      (∀ p ∈ c.hints, ∃ b, m.excerpt_buffer p.1 = some b ∧ b ∈ m.buffers) →
      visible = projectVisible m c.allowed_hint_kinds c.hints →
      ((applyOptSplice
          (applyOptSplice visible
            (updateSettings c m { s with show_parameter_hints := false } visible).2)
          (updateSettings
            (updateSettings c m { s with show_parameter_hints := false } visible).1 m s
            (applyOptSplice visible
              (updateSettings c m { s with show_parameter_hints := false }
                visible).2)).2).Perm visible) ∧
      ((updateSettings
          (updateSettings c m { s with show_parameter_hints := false } visible).1 m s
          (applyOptSplice visible
            (updateSettings c m { s with show_parameter_hints := false }
              visible).2)).1.hints = c.hints) ∧
      ((updateSettings
          (updateSettings c m { s with show_parameter_hints := false } visible).1 m s
          (applyOptSplice visible
            (updateSettings c m { s with show_parameter_hints := false }
              visible).2)).1.allowed_hint_kinds = c.allowed_hint_kinds) := by
  intro c m s visible hen hpar hallowed hkeys hsorted hglob hres hvis
  have hT := allowedHintTypes_param_toggle s hpar
  have hins : allowedHintTypes s =
      insert (some InlayHintKind.parameter)
        (allowedHintTypes { s with show_parameter_hints := false }) := hT.1
  have hpK2 : some InlayHintKind.parameter ∉
      allowedHintTypes { s with show_parameter_hints := false } := hT.2
  have hen' : ({ s with show_parameter_hints := false } : InlayHintSettings).enabled =
      true := hen
  have hne1 : allowedHintTypes { s with show_parameter_hints := false } ≠
      c.allowed_hint_kinds := by
    rw [hallowed, hins]
    intro hcontra
    exact hpK2 (hcontra ▸ Finset.mem_insert_self _ _)
  have hids := per_excerpt_ids_nodup c.hints hglob
  obtain ⟨rem, hremperm, hspliceeq⟩ := newAllowedHintKindsSplice_spec c m
    (allowedHintTypes { s with show_parameter_hints := false }) hkeys hsorted hids hres hne1
  have hremcanon : ((c.hints.map (fun p =>
      (p.2.hints.filter (fun r => r.2.kind ∈ c.allowed_hint_kinds ∧
        r.2.kind ∉ allowedHintTypes { s with show_parameter_hints := false })).map
        (fun r => r.1))).flatten) = paramRemIds c.hints := by
    unfold paramRemIds
    congr 1
    apply List.map_congr_left
    intro p _
    congr 1
    apply List.filter_congr
    intro r _
    rw [decide_eq_decide, hallowed, hins]
    exact (mem_insert_param_iff _ hpK2 r.2.kind).1
  have hinsnil : ((c.hints.map (fun p =>
      (p.2.hints.filter (fun r => r.2.kind ∉ c.allowed_hint_kinds ∧
        r.2.kind ∈ allowedHintTypes { s with show_parameter_hints := false })).map
        (toInsertTriple m p.1))).flatten) = [] := by
    rw [List.flatten_eq_nil_iff]
    intro l hl
    obtain ⟨p, hp, rfl⟩ := List.mem_map.mp hl
    rw [List.map_eq_nil_iff, List.filter_eq_nil_iff]
    intro r _
    simp only [decide_eq_true_eq]
    rw [hallowed, hins]
    intro ⟨hn, hm⟩
    exact hn (Finset.mem_insert_of_mem hm)
  rw [hremcanon] at hremperm
  rw [hinsnil] at hspliceeq
  rw [← hvis] at hspliceeq
  simp only [List.isEmpty_nil, Bool.and_true] at hspliceeq
  have hupd1 := updateSettings_on_kind_change c m { s with show_parameter_hints := false }
    visible hen' hne1
  by_cases hcase : paramRemIds c.hints = []
  · have hremnil : rem = [] := by
      have := hremperm
      rw [hcase] at this
      exact this.eq_nil
    have hs1 : newAllowedHintKindsSplice c m visible
        (allowedHintTypes { s with show_parameter_hints := false }) = Option.none := by
      rw [hspliceeq, hremnil]
      rfl
    rw [hs1] at hupd1
    rw [hupd1]
    show (applyOptSplice (applyOptSplice visible Option.none)
        (updateSettings c m s (applyOptSplice visible Option.none)).2).Perm visible ∧
      (updateSettings c m s (applyOptSplice visible Option.none)).1.hints = c.hints ∧
      (updateSettings c m s
        (applyOptSplice visible Option.none)).1.allowed_hint_kinds = c.allowed_hint_kinds
    rw [show applyOptSplice visible Option.none = visible from rfl]
    rw [updateSettings_noop c m s visible hen hallowed.symm]
    exact ⟨List.Perm.refl _, rfl, rfl⟩
  · have hremne : rem ≠ [] := by
      intro hcontra
      have := hremperm.symm
      rw [hcontra] at this
      exact hcase this.eq_nil
    have hs1 : newAllowedHintKindsSplice c m visible
        (allowedHintTypes { s with show_parameter_hints := false }) =
        some ⟨rem, []⟩ := by
      rw [hspliceeq]
      rw [if_neg (by simp [List.isEmpty_iff, hremne])]
    rw [hs1] at hupd1
    rw [hupd1]
    have hV1 : applyOptSplice visible (some (⟨rem, []⟩ : InlaySplice)) =
        projectVisible m (allowedHintTypes { s with show_parameter_hints := false })
          c.hints := by
      show applySplice visible ⟨rem, []⟩ = _
      unfold applySplice
      simp only [List.map_nil, List.append_nil]
      rw [hvis, hallowed, hins]
      exact projection_filter_param m c.hints _ hglob hpK2 rem
        (fun id => hremperm.mem_iff)
    show (applyOptSplice (applyOptSplice visible (some ⟨rem, []⟩))
        (updateSettings
          { c with
              version := c.version + 1
              update_tasks := []
              allowed_hint_kinds :=
                allowedHintTypes { s with show_parameter_hints := false } } m s
          (applyOptSplice visible (some ⟨rem, []⟩))).2).Perm visible ∧ _ ∧ _
    rw [hV1]
    have hne2 : allowedHintTypes s ≠
        ({ c with
            version := c.version + 1
            update_tasks := []
            allowed_hint_kinds :=
              allowedHintTypes { s with show_parameter_hints := false } } :
          InlayHintCache).allowed_hint_kinds := by
      show allowedHintTypes s ≠ allowedHintTypes { s with show_parameter_hints := false }
      rw [hins]
      intro hcontra
      exact hpK2 (hcontra ▸ Finset.mem_insert_self _ _)
    obtain ⟨rem2, hrem2perm, hsplice2eq⟩ := newAllowedHintKindsSplice_spec
      { c with
          version := c.version + 1
          update_tasks := []
          allowed_hint_kinds :=
            allowedHintTypes { s with show_parameter_hints := false } } m
      (allowedHintTypes s) hkeys hsorted hids hres hne2
    have hrem2nil : rem2 = [] := by
      have hcanonnil : ((c.hints.map (fun p =>
          (p.2.hints.filter (fun r =>
            r.2.kind ∈ allowedHintTypes { s with show_parameter_hints := false } ∧
            r.2.kind ∉ allowedHintTypes s)).map (fun r => r.1))).flatten) = [] := by
        rw [List.flatten_eq_nil_iff]
        intro l hl
        obtain ⟨p, hp, rfl⟩ := List.mem_map.mp hl
        rw [List.map_eq_nil_iff, List.filter_eq_nil_iff]
        intro r _
        simp only [decide_eq_true_eq]
        rw [hins]
        intro ⟨hm, hn⟩
        exact hn (Finset.mem_insert_of_mem hm)
      have hperm2 : rem2.Perm ([] : List Nat) := by
        refine hrem2perm.trans ?_
        rw [show ((c.hints.map (fun p =>
          (p.2.hints.filter (fun r =>
            r.2.kind ∈ allowedHintTypes { s with show_parameter_hints := false } ∧
            r.2.kind ∉ allowedHintTypes s)).map (fun r => r.1))).flatten) = [] from
          hcanonnil]
      exact hperm2.eq_nil
    have hins2canon : ((c.hints.map (fun p =>
        (p.2.hints.filter (fun r =>
          r.2.kind ∉ allowedHintTypes { s with show_parameter_hints := false } ∧
          r.2.kind ∈ allowedHintTypes s)).map (toInsertTriple m p.1))).flatten) =
        (c.hints.map (fun p =>
          (p.2.hints.filter (fun r => r.2.kind = some InlayHintKind.parameter)).map
            (toInsertTriple m p.1))).flatten := by
      congr 1
      apply List.map_congr_left
      intro p _
      congr 1
      apply List.filter_congr
      intro r _
      rw [decide_eq_decide, hins]
      exact (mem_insert_param_iff _ hpK2 r.2.kind).2
    have hI2ne : ((c.hints.map (fun p =>
        (p.2.hints.filter (fun r => r.2.kind = some InlayHintKind.parameter)).map
          (toInsertTriple m p.1))).flatten) ≠ [] := by
      intro hcontra
      apply hcase
      unfold paramRemIds
      rw [List.flatten_eq_nil_iff] at hcontra ⊢
      intro l hl
      obtain ⟨p, hp, rfl⟩ := List.mem_map.mp hl
      have := hcontra _ (List.mem_map.mpr ⟨p, hp, rfl⟩)
      rw [List.map_eq_nil_iff] at this ⊢
      exact this
    have hsplice2 : newAllowedHintKindsSplice
        { c with
            version := c.version + 1
            update_tasks := []
            allowed_hint_kinds :=
              allowedHintTypes { s with show_parameter_hints := false } } m
        (projectVisible m (allowedHintTypes { s with show_parameter_hints := false })
          c.hints) (allowedHintTypes s) =
        some ⟨[], (c.hints.map (fun p =>
          (p.2.hints.filter (fun r => r.2.kind = some InlayHintKind.parameter)).map
            (toInsertTriple m p.1))).flatten⟩ := by
      have heq2 : newAllowedHintKindsSplice
          { c with
              version := c.version + 1
              update_tasks := []
              allowed_hint_kinds :=
                allowedHintTypes { s with show_parameter_hints := false } } m
          (projectVisible m (allowedHintTypes { s with show_parameter_hints := false })
            c.hints) (allowedHintTypes s) =
          (if rem2.isEmpty && ((c.hints.map (fun p =>
              (p.2.hints.filter (fun r =>
                r.2.kind ∉ allowedHintTypes { s with show_parameter_hints := false } ∧
                r.2.kind ∈ allowedHintTypes s)).map
                (toInsertTriple m p.1))).flatten).isEmpty
           then Option.none
           else some ⟨rem2, (c.hints.map (fun p =>
              (p.2.hints.filter (fun r =>
                r.2.kind ∉ allowedHintTypes { s with show_parameter_hints := false } ∧
                r.2.kind ∈ allowedHintTypes s)).map
                (toInsertTriple m p.1))).flatten⟩) := hsplice2eq
      rw [heq2, hins2canon, hrem2nil]
      rw [if_neg (by simp [List.isEmpty_iff, hI2ne])]
    have hupd2 := updateSettings_on_kind_change
      { c with
          version := c.version + 1
          update_tasks := []
          allowed_hint_kinds :=
            allowedHintTypes { s with show_parameter_hints := false } } m s
      (projectVisible m (allowedHintTypes { s with show_parameter_hints := false })
        c.hints) hen hne2
    rw [hsplice2] at hupd2
    rw [hupd2]
    refine ⟨?_, rfl, hallowed.symm⟩
    show (applySplice
        (projectVisible m (allowedHintTypes { s with show_parameter_hints := false })
          c.hints)
        ⟨[], (c.hints.map (fun p =>
          (p.2.hints.filter (fun r => r.2.kind = some InlayHintKind.parameter)).map
            (toInsertTriple m p.1))).flatten⟩).Perm visible
    unfold applySplice
    have hfilterall : (projectVisible m
        (allowedHintTypes { s with show_parameter_hints := false }) c.hints).filter
        (fun inlay => inlay.id ∉ (⟨[], (c.hints.map (fun p =>
          (p.2.hints.filter (fun r => r.2.kind = some InlayHintKind.parameter)).map
            (toInsertTriple m p.1))).flatten⟩ : InlaySplice).to_remove) =
        projectVisible m (allowedHintTypes { s with show_parameter_hints := false })
          c.hints := by
      rw [List.filter_eq_self]
      intro i _
      simp
    rw [hfilterall]
    have hmapins : ((⟨[], (c.hints.map (fun p =>
        (p.2.hints.filter (fun r => r.2.kind = some InlayHintKind.parameter)).map
          (toInsertTriple m p.1))).flatten⟩ : InlaySplice).to_insert).map
        (fun p => (⟨p.2.1, p.1, p.2.2.label⟩ : Inlay)) =
        (c.hints.map (fun p =>
          (p.2.hints.filter (fun r => r.2.kind = some InlayHintKind.parameter)).map
            (toInlay m p.1))).flatten := by
      show ((c.hints.map (fun p =>
        (p.2.hints.filter (fun r => r.2.kind = some InlayHintKind.parameter)).map
          (toInsertTriple m p.1))).flatten).map
          (fun p => (⟨p.2.1, p.1, p.2.2.label⟩ : Inlay)) = _
      rw [List.map_flatten, List.map_map]
      congr 1
      apply List.map_congr_left
      intro p _
      simp only [Function.comp]
      rw [List.map_map]
      rfl
    rw [hmapins]
    have hsplit := projection_param_split m c.hints
      (allowedHintTypes { s with show_parameter_hints := false }) hpK2
    rw [hvis, hallowed, hins]
    exact hsplit.symm

/-- A concrete roundtrip scenario: one excerpt holding a Type hint and a
Parameter hint, both visible. -/
def c5cache : InlayHintCache :=
  ⟨[(7, ⟨0, 0, [(1, ⟨5, some InlayHintKind.type, "t"⟩),
                (2, ⟨10, some InlayHintKind.parameter, "p"⟩)]⟩)],
   {some InlayHintKind.type, some InlayHintKind.parameter}, 3, []⟩

def c5multi : MultiBufferModel := ⟨fun _ => some 9, [9]⟩

def c5settings : InlayHintSettings := ⟨true, true, true, false⟩

def c5visible : List Inlay :=
  projectVisible c5multi c5cache.allowed_hint_kinds c5cache.hints

theorem claim5_witness :
    ((applyOptSplice
        (applyOptSplice c5visible
          (updateSettings c5cache c5multi
            { c5settings with show_parameter_hints := false } c5visible).2)
        (updateSettings
          (updateSettings c5cache c5multi
            { c5settings with show_parameter_hints := false } c5visible).1 c5multi
          c5settings
          (applyOptSplice c5visible
            (updateSettings c5cache c5multi
              { c5settings with show_parameter_hints := false }
              c5visible).2)).2).Perm c5visible) ∧
    ((updateSettings
        (updateSettings c5cache c5multi
          { c5settings with show_parameter_hints := false } c5visible).1 c5multi
        c5settings
        (applyOptSplice c5visible
          (updateSettings c5cache c5multi
            { c5settings with show_parameter_hints := false }
            c5visible).2)).1.hints = c5cache.hints) ∧
    ((updateSettings
        (updateSettings c5cache c5multi
          { c5settings with show_parameter_hints := false } c5visible).1 c5multi
        c5settings
        (applyOptSplice c5visible
          (updateSettings c5cache c5multi
            { c5settings with show_parameter_hints := false }
            c5visible).2)).1.allowed_hint_kinds = c5cache.allowed_hint_kinds) :=
  claim5_kind_toggle_roundtrip c5cache c5multi c5settings c5visible rfl rfl
    (by decide) (by decide) (by decide) (by decide)
    (fun p _ => ⟨9, rfl, by decide⟩) rfl

end InlayHintCacheModel
